import Mathlib

/-!
Verification of the lexicon-to-FST graph-compilation core of
`speechbrain/decoders/prepare_lang_bpe.py`.

The Python source is shallowly embedded: Python strings become `String`
(reasoned about through their `List Char` data), Python `dict`s keyed by
strings become functions `List Char → Nat` updated pointwise, fallible code
returns `Except`, and the arc lists of the FST builder become
`List (List Int)` (the final-state marker of the Python code is a
one-element list, so arcs are kept as plain lists of integers exactly as in
the source).
-/

namespace PrepareLangBpe

/-- A lexicon: ordered list of (word, pronunciation) pairs, as in the
Python type alias `Lexicon = List[Tuple[str, List[str]]]`. -/
abbrev Lexicon := List (String × List String)

/-- The ASCII whitespace characters on which Python's `str.split()` (with no
separator) splits: space, tab, newline, carriage return, vertical tab, form
feed. -/
def pyWsp (c : Char) : Bool :=
  c.toNat == 32 || c.toNat == 9 || c.toNat == 10 || c.toNat == 13 ||
    c.toNat == 11 || c.toNat == 12

/-- `" ".join` on the character-list level: interleave a single space
between consecutive items. -/
def joinChars : List (List Char) → List Char
  | [] => []
  | [t] => t
  | t :: ts => t ++ ' ' :: joinChars ts

/-- The canonical phone-sequence key of a pronunciation: the character data
of `" ".join(prons)`, the string the Python code uses as dictionary key. -/
def phnKey (prons : List String) : List Char :=
  joinChars (prons.map String.data)

/-- Python `str.split()` (no separator) on the character-list level: split
on runs of whitespace and drop empty pieces.  A non-whitespace character is
prepended to the following token when the next character is also
non-whitespace, and otherwise starts a token of its own. -/
def pySplitChars : List Char → List (List Char)
  | [] => []
  | c :: cs =>
    if pyWsp c then pySplitChars cs
    else
      match cs with
      | [] => [[c]]
      | d :: _ =>
        if pyWsp d then [c] :: pySplitChars cs
        else
          match pySplitChars cs with
          | [] => [[c]]
          | t :: ts => (c :: t) :: ts

/-- The decimal digit characters, used to model Python's `str(n)`. -/
def digitChar (d : Nat) : Char :=
  match d with
  | 0 => '0' | 1 => '1' | 2 => '2' | 3 => '3' | 4 => '4'
  | 5 => '5' | 6 => '6' | 7 => '7' | 8 => '8' | _ => '9'

/-- Fueled decimal rendering; the fuel only has to dominate the number of
digits, and `natChars` supplies enough. -/
def natCharsAux : Nat → Nat → List Char
  | 0, _ => []
  | fuel + 1, n =>
    if n < 10 then [digitChar n]
    else natCharsAux fuel (n / 10) ++ [digitChar (n % 10)]

/-- Decimal rendering of a natural number as a character list, modelling
Python's `str(n)` / f-string interpolation of an `int`. -/
def natChars (n : Nat) : List Char :=
  natCharsAux (n + 1) n

/-- The disambiguation token `#k` appended by the assigner. -/
def hashTok (k : Nat) : String :=
  String.mk ('#' :: natChars k)

/-- Pointwise update of a string-keyed map, modelling `d[k] = v` on a
Python `defaultdict(int)`. -/
def upd (m : List Char → Nat) (k : List Char) (v : Nat) : List Char → Nat :=
  fun k' => if k' = k then v else m k'

theorem upd_self (m : List Char → Nat) (k : List Char) (v : Nat) :
    upd m k v k = v := by
  rw [upd]
  exact if_pos rfl

theorem upd_other (m : List Char → Nat) (k : List Char) (v : Nat)
    (k' : List Char) (h : k' ≠ k) : upd m k v k' = m k' := by
  rw [upd]
  exact if_neg h

/-- The ways `add_disambig_symbols` can raise in Python:
`indexErrorPopEmpty` is the `IndexError` from `prons.pop()` on an empty
pronunciation (step 2 of the function), `assertEmptyKey` is the
`AssertionError` from `assert phnseq != ""` (step 3).  Neither carries the
offending word. -/
inductive LexErr where
  | indexErrorPopEmpty : LexErr
  | assertEmptyKey : LexErr
deriving DecidableEq

/-- Step (1) of `add_disambig_symbols`: the `count` defaultdict mapping each
joined phone-sequence key to its number of occurrences in the lexicon. -/
def mkCount (lexicon : Lexicon) : List Char → Nat :=
  lexicon.foldl (fun m e => upd m (phnKey e.2) (m (phnKey e.2) + 1))
    (fun _ => 0)

/-- Fueled version of the inner `while prons:` loop of step (2); each
iteration pops the last token, so a fuel equal to the list length is
exact. -/
def markSubseqsAux : Nat → (List Char → Nat) → List String →
    List Char → Nat
  | 0, m, _ => m
  | fuel + 1, m, prons =>
    match prons with
    | [] => m
    | p :: ps => markSubseqsAux fuel (upd m (phnKey (p :: ps)) 1)
        ((p :: ps).dropLast)

/-- The inner `while prons:` loop of step (2): mark the key of `prons` and
of every shorter left sub-sequence obtained by repeatedly popping the last
token. -/
def markSubseqs (m : List Char → Nat) (prons : List String) :
    List Char → Nat :=
  markSubseqsAux prons.length m prons

/-- Step (2) of `add_disambig_symbols`: build the `issubseq` defaultdict.
For each entry the code first does `prons.pop()` on a copy, which raises
`IndexError` on an empty pronunciation; otherwise it marks all proper
left sub-sequences of the pronunciation. -/
def mkIssubseqAux (m : List Char → Nat) :
    Lexicon → Except LexErr (List Char → Nat)
  | [] => .ok m
  | e :: rest =>
    if e.2 = [] then .error .indexErrorPopEmpty
    else mkIssubseqAux (markSubseqs m e.2.dropLast) rest

/-- The mutable state of step (3) of `add_disambig_symbols`: the output
list `ans`, `max_disambig`, and the `last_used_disambig_symbol_of`
defaultdict. -/
structure P3State where
  ans : List (String × List String)
  maxDisambig : Nat
  lastUsed : List Char → Nat

/-- One iteration of the step-(3) loop of `add_disambig_symbols`:
assert the key is non-empty; keep the entry when its key is unique and not
a marked sub-sequence; otherwise allocate the next per-key disambiguation
index, update `max_disambig`, and rewrite the pronunciation by splitting
the joined key with `" #k"` appended. -/
def p3step (count issubseq : List Char → Nat) (st : P3State)
    (e : String × List String) : Except LexErr P3State :=
  let phnseq := phnKey e.2
  if phnseq = [] then .error .assertEmptyKey
  else if issubseq phnseq = 0 ∧ count phnseq = 1 then
    .ok { st with ans := st.ans ++ [e] }
  else
    let cur0 := st.lastUsed phnseq
    let cur := if cur0 = 0 then 1 else cur0 + 1
    .ok { ans := st.ans ++
            [(e.1, (pySplitChars (phnseq ++ ' ' :: '#' :: natChars cur)).map
              String.mk)],
          maxDisambig := if cur > st.maxDisambig then cur else st.maxDisambig,
          lastUsed := upd st.lastUsed phnseq cur }

/-- The step-(3) loop of `add_disambig_symbols` over the lexicon. -/
def pass3 (count issubseq : List Char → Nat) :
    Lexicon → P3State → Except LexErr P3State
  | [], st => .ok st
  | e :: rest, st =>
    match p3step count issubseq st e with
    | .error er => .error er
    | .ok st' => pass3 count issubseq rest st'

/-- `add_disambig_symbols` from `prepare_lang_bpe.py`: add pseudo-phone
disambiguation symbols `#1`, `#2`, ... and return the rewritten lexicon
together with the maximal disambiguation index used (0 when none). -/
def add_disambig_symbols (lexicon : Lexicon) :
    Except LexErr (Lexicon × Nat) :=
  let count := mkCount lexicon
  match mkIssubseqAux (fun _ => 0) lexicon with
  | .error er => .error er
  | .ok issubseq =>
    match pass3 count issubseq lexicon ⟨[], 0, fun _ => 0⟩ with
    | .error er => .error er
    | .ok st => .ok (st.ans, st.maxDisambig)

instance instDecEqExcept {ε α : Type _} [DecidableEq ε] [DecidableEq α] :
    DecidableEq (Except ε α)
  | .error e, .error f => decidable_of_iff (e = f) (by simp)
  | .error _, .ok _ => isFalse (by simp)
  | .ok _, .error _ => isFalse (by simp)
  | .ok x, .ok y => decidable_of_iff (x = y) (by simp)

example :
    add_disambig_symbols [("A", ["a"]), ("B", ["a"])] =
      .ok ([("A", ["a", "#1"]), ("B", ["a", "#2"])], 2) := by decide

example :
    add_disambig_symbols [("CAT", ["k", "a", "t"]), ("CATS", ["k", "a", "t", "s"])] =
      .ok ([("CAT", ["k", "a", "t", "#1"]), ("CATS", ["k", "a", "t", "s"])], 1) := by
  decide

/-! ## The FST builder `lexicon_to_fst_no_sil` and `add_self_loops`

Arcs are `List Int` of the form `[src, dst, ilabel, olabel, score]`, and
the final-state marker appended by the Python code is the one-element list
`[final_state]`, exactly as in the source. -/

/-- The ways `lexicon_to_fst_no_sil` can raise in Python: a `KeyError`
from a symbol-table lookup (carrying the missing symbol), the two
reserved-id assertions, and the per-entry assertion
`assert len(prons) > 0` (which carries the word). -/
inductive FstErr where
  | keyError (sym : String) : FstErr
  | assertUnkId : FstErr
  | assertEpsId : FstErr
  | assertNoProns (word : String) : FstErr
deriving DecidableEq

/-- Arcs for the tokens of a pronunciation after the first one: each arc
carries epsilon (0) as output label, moves into a freshly allocated state,
and the arc of the last token returns to the loop state 0.  Returns the
arcs together with the updated `next_state` counter. -/
def midArcs (cur next : Nat) : List Int → List (List Int) × Nat
  | [] => ([], next)
  | [t] => ([[(cur : Int), 0, t, 0, 0]], next)
  | t :: ts =>
    let r := midArcs next (next + 1) ts
    ([(cur : Int), (next : Int), t, 0, 0] :: r.1, r.2)

/-- Arcs for one lexicon entry: the first arc leaves the loop state 0 and
carries the word id as output label; the remaining arcs are `midArcs`.  A
single-token pronunciation yields one arc from state 0 back to state 0
carrying the word id. -/
def entryArcs (wid : Int) (tids : List Int) (next : Nat) :
    List (List Int) × Nat :=
  match tids with
  | [] => ([], next)
  | [t] => ([[0, 0, t, wid, 0]], next)
  | t :: ts =>
    let r := midArcs next (next + 1) ts
    ([0, (next : Int), t, wid, 0] :: r.1, r.2)

/-- Left-to-right symbol-table lookup of all tokens of a pronunciation,
modelling `[token2id[i] for i in prons]`; the first missing symbol raises
`KeyError`. -/
def lookupAll (token2id : String → Option Int) :
    List String → Except FstErr (List Int)
  | [] => .ok []
  | t :: ts =>
    match token2id t with
    | none => .error (.keyError t)
    | some v =>
      match lookupAll token2id ts with
      | .error e => .error e
      | .ok vs => .ok (v :: vs)

/-- The main emission loop of `lexicon_to_fst_no_sil`: for each entry,
assert the pronunciation is non-empty, resolve the word id and token ids,
and emit the entry's arcs, threading the `next_state` counter. -/
def buildCore (token2id word2id : String → Option Int) :
    Lexicon → Nat → Except FstErr (List (List Int) × Nat)
  | [], next => .ok ([], next)
  | (w, prons) :: rest, next =>
    if prons = [] then .error (.assertNoProns w)
    else
      match word2id w with
      | none => .error (.keyError w)
      | some wid =>
        match lookupAll token2id prons with
        | .error e => .error e
        | .ok tids =>
          let r := entryArcs wid tids next
          match buildCore token2id word2id rest r.2 with
          | .error e => .error e
          | .ok (arcs, n') => .ok (r.1 ++ arcs, n')

/-- `add_self_loops` from `prepare_lang_bpe.py`: collect the distinct
source states having at least one outgoing arc with non-epsilon output
label, and append one self-loop `[s, s, disambig_phone, disambig_word, 0]`
for each.  (The Python code collects the states into a `set`, whose
iteration order is unspecified; the model enumerates them via
`List.dedup`, and all general statements below are order-insensitive.) -/
def add_self_loops (arcs : List (List Int))
    (disambig_phone disambig_word : Int) : List (List Int) :=
  let srcs := arcs.filterMap (fun arc =>
    match arc with
    | [src, _, _, olabel, _] => if olabel ≠ 0 then some src else none
    | _ => none)
  arcs ++ srcs.dedup.map (fun s => [s, s, disambig_phone, disambig_word, 0])

/-- The sort key of `sorted(arcs, key=lambda arc: arc[0])`: the first
element of the arc (the final-state marker `[F]` has key `F`). -/
def srcKey (arc : List Int) : Int := arc.headI

/-- The comparison `arc[0] <= arc'[0]` used to sort the final arc list. -/
def srcLe (a b : List Int) : Prop := srcKey a ≤ srcKey b

instance : DecidableRel srcLe := fun _ _ => Int.decLe _ _

instance : IsTotal (List Int) srcLe :=
  ⟨fun a b => Int.le_total (srcKey a) (srcKey b)⟩

instance : IsTrans (List Int) srcLe :=
  ⟨fun _ _ _ h1 h2 => le_trans h1 h2⟩

/-- Python's `sorted` with key `arc[0]`: a stable sort by source state. -/
def sortArcs (arcs : List (List Int)) : List (List Int) :=
  arcs.insertionSort srcLe

/-- `lexicon_to_fst_no_sil` from `prepare_lang_bpe.py`, up to (and
including) the sorted arc list handed to `k2.Fsa.from_str`; the
stringification and the external `k2` call are outside the model. -/
def lexicon_to_fst_no_sil (lexicon : Lexicon)
    (token2id word2id : String → Option Int) (need_self_loops : Bool) :
    Except FstErr (List (List Int)) :=
  match token2id "<unk>" with
  | none => .error (.keyError "<unk>")
  | some u =>
    if u ≠ 0 then .error .assertUnkId
    else
      match word2id "<eps>" with
      | none => .error (.keyError "<eps>")
      | some ep =>
        if ep ≠ 0 then .error .assertEpsId
        else
          match buildCore token2id word2id lexicon 1 with
          | .error e => .error e
          | .ok (arcs0, next) =>
            let step2 : Except FstErr (List (List Int)) :=
              if need_self_loops then
                match token2id "#0" with
                | none => .error (.keyError "#0")
                | some dp =>
                  match word2id "#0" with
                  | none => .error (.keyError "#0")
                  | some dw => .ok (add_self_loops arcs0 dp dw)
              else .ok arcs0
            match step2 with
            | .error e => .error e
            | .ok arcs1 =>
              .ok (sortArcs (arcs1 ++
                [[0, (next : Int), -1, -1, 0], [(next : Int)]]))

/-- Total number of states allocated past the loop state by the emission
loop: each entry allocates `len(prons) - 1` intermediate states. -/
def sumLens : Lexicon → Nat
  | [] => 0
  | e :: rest => (e.2.length - 1) + sumLens rest

/-- Scenario C/D token table. -/
def tok2idC : String → Option Int := fun s =>
  if s = "<unk>" then some 0 else if s = "k" then some 1
  else if s = "a" then some 2 else if s = "t" then some 3 else none

/-- Scenario C/D word table. -/
def word2idC : String → Option Int := fun s =>
  if s = "<eps>" then some 0 else if s = "CAT" then some 1 else none

/-- Scenario C/D lexicon. -/
def lexC : Lexicon := [("CAT", ["k", "a", "t"])]

/-- Scenario D token table: Scenario C plus `#0` at token id 4. -/
def tok2idD : String → Option Int := fun s =>
  if s = "#0" then some 4 else tok2idC s

/-- Scenario D word table: Scenario C plus `#0` at word id 2. -/
def word2idD : String → Option Int := fun s =>
  if s = "#0" then some 2 else word2idC s

example :
    lexicon_to_fst_no_sil lexC tok2idC word2idC false =
      .ok [[0, 1, 1, 1, 0], [0, 3, -1, -1, 0], [1, 2, 2, 0, 0],
           [2, 0, 3, 0, 0], [3]] := by decide

example :
    lexicon_to_fst_no_sil lexC tok2idD word2idD true =
      .ok [[0, 1, 1, 1, 0], [0, 0, 4, 2, 0], [0, 3, -1, -1, 0],
           [1, 2, 2, 0, 0], [2, 0, 3, 0, 0], [3]] := by decide

/-! ## Splitting and joining -/

theorem pySplitChars_tok : ∀ (t rest : List Char), t ≠ [] →
    (∀ c ∈ t, pyWsp c = false) →
    (∀ d, rest.head? = some d → pyWsp d = true) →
    pySplitChars (t ++ rest) = t :: pySplitChars rest
  | [], _, ht, _, _ => absurd rfl ht
  | [c], rest, _, hws, hrest => by
    have hc : pyWsp c = false := hws c (by simp)
    cases rest with
    | nil => simp [pySplitChars, hc]
    | cons d ds =>
      have hd : pyWsp d = true := hrest d rfl
      simp [pySplitChars, hc, hd]
  | c :: c₂ :: t', rest, _, hws, hrest => by
    have hc : pyWsp c = false := hws c (by simp)
    have hc₂ : pyWsp c₂ = false := hws c₂ (by simp)
    have ih := pySplitChars_tok (c₂ :: t') rest (by simp)
      (fun x hx => hws x (List.mem_cons_of_mem c hx)) hrest
    have hstep : pySplitChars ((c :: c₂ :: t') ++ rest) =
        match pySplitChars ((c₂ :: t') ++ rest) with
        | [] => [[c]]
        | t :: ts => (c :: t) :: ts := by
      show pySplitChars (c :: ((c₂ :: t') ++ rest)) = _
      simp only [List.cons_append]
      simp [pySplitChars, hc, hc₂]
    rw [hstep, ih]

theorem pySplitChars_ws (c : Char) (cs : List Char) (h : pyWsp c = true) :
    pySplitChars (c :: cs) = pySplitChars cs := by
  simp [pySplitChars, h]

theorem pySplit_join : ∀ (toks : List (List Char)),
    (∀ t ∈ toks, t ≠ [] ∧ ∀ c ∈ t, pyWsp c = false) →
    pySplitChars (joinChars toks) = toks
  | [], _ => rfl
  | [t], h => by
    have ht := h t (by simp)
    have := pySplitChars_tok t [] ht.1 ht.2 (by intro d hd; simp at hd)
    simpa [joinChars] using this
  | t :: u :: ts, h => by
    have ht := h t (by simp)
    have hrec := pySplit_join (u :: ts)
      (fun x hx => h x (List.mem_cons_of_mem t hx))
    show pySplitChars (t ++ ' ' :: joinChars (u :: ts)) = _
    rw [pySplitChars_tok t (' ' :: joinChars (u :: ts)) ht.1 ht.2
      (by intro d hd; simp at hd; subst hd; rfl)]
    rw [pySplitChars_ws ' ' _ rfl, hrec]

theorem joinChars_concat : ∀ (ts : List (List Char)) (d : List Char),
    ts ≠ [] → joinChars (ts ++ [d]) = joinChars ts ++ ' ' :: d
  | [], _, h => absurd rfl h
  | [t], d, _ => rfl
  | t :: u :: ts, d, _ => by
    have ih := joinChars_concat (u :: ts) d (by simp)
    show t ++ ' ' :: joinChars ((u :: ts) ++ [d]) =
      (t ++ ' ' :: joinChars (u :: ts)) ++ ' ' :: d
    rw [ih]; simp

/-! ## Decimal digits -/

theorem digitChar_toNat (d : Nat) (h : d < 10) :
    (digitChar d).toNat = 48 + d := by
  interval_cases d <;> rfl

theorem natCharsAux_digits : ∀ (fuel n : Nat), ∀ c ∈ natCharsAux fuel n,
    48 ≤ c.toNat ∧ c.toNat ≤ 57
  | 0, _, c, hc => by simp [natCharsAux] at hc
  | fuel + 1, n, c, hc => by
    rw [natCharsAux] at hc
    by_cases h : n < 10
    · rw [if_pos h] at hc
      simp at hc
      subst hc
      rw [digitChar_toNat n h]; omega
    · rw [if_neg h] at hc
      rcases List.mem_append.mp hc with h1 | h2
      · exact natCharsAux_digits fuel (n / 10) c h1
      · simp at h2
        subst h2
        have hm : n % 10 < 10 := Nat.mod_lt n (by omega)
        rw [digitChar_toNat _ hm]
        omega

theorem natChars_digits (n : Nat) : ∀ c ∈ natChars n,
    48 ≤ c.toNat ∧ c.toNat ≤ 57 :=
  natCharsAux_digits (n + 1) n

theorem pyWsp_of_digit (c : Char) (h : 48 ≤ c.toNat ∧ c.toNat ≤ 57) :
    pyWsp c = false := by
  rw [pyWsp]
  have h1 : (c.toNat == 32) = false := by simp; omega
  have h2 : (c.toNat == 9) = false := by simp; omega
  have h3 : (c.toNat == 10) = false := by simp; omega
  have h4 : (c.toNat == 13) = false := by simp; omega
  have h5 : (c.toNat == 11) = false := by simp; omega
  have h6 : (c.toNat == 12) = false := by simp; omega
  rw [h1, h2, h3, h4, h5, h6]; rfl

theorem natChars_ne_nil (n : Nat) : natChars n ≠ [] := by
  rw [natChars, natCharsAux]
  by_cases h : n < 10
  · rw [if_pos h]; simp
  · rw [if_neg h]; simp

/-- Value of a digit string, inverse of `natChars`. -/
def digitsVal (l : List Char) : Nat :=
  l.foldl (fun a c => 10 * a + (c.toNat - 48)) 0

theorem digitsVal_natCharsAux : ∀ (fuel n : Nat), n < fuel →
    digitsVal (natCharsAux fuel n) = n
  | 0, _, h => by omega
  | fuel + 1, n, hn => by
    rw [natCharsAux]
    by_cases h : n < 10
    · rw [if_pos h]
      simp [digitsVal, digitChar_toNat n h]
    · rw [if_neg h]
      have hlt : n / 10 < n := Nat.div_lt_self (by omega) (by omega)
      have hdiv : n / 10 < fuel := by omega
      have ih := digitsVal_natCharsAux fuel (n / 10) hdiv
      have hm : n % 10 < 10 := Nat.mod_lt n (by omega)
      rw [digitsVal, List.foldl_append]
      rw [digitsVal] at ih
      rw [ih]
      simp only [List.foldl]
      rw [digitChar_toNat _ hm]
      have := Nat.div_add_mod n 10
      omega

theorem natChars_inj {a b : Nat} (h : natChars a = natChars b) : a = b := by
  have ha := digitsVal_natCharsAux (a + 1) a (by omega)
  have hb := digitsVal_natCharsAux (b + 1) b (by omega)
  rw [natChars, natChars] at h
  rw [← ha, ← hb, h]

theorem hashTok_inj {a b : Nat} (h : hashTok a = hashTok b) : a = b := by
  rw [hashTok, hashTok] at h
  have : '#' :: natChars a = '#' :: natChars b := congrArg String.data h
  exact natChars_inj (by simpa using this)

/-! ## Well-behaved tokens and key lemmas

The Python code identifies pronunciations through the space-joined string
`" ".join(prons)` and rewrites through `.split()`.  On tokens that are
non-empty and contain no whitespace this identification is faithful:
joining is injective and splitting the join recovers the token list. -/

/-- A token that survives the join/split round trip: non-empty and free of
(ASCII) whitespace. -/
def goodTok (t : String) : Prop :=
  t.data ≠ [] ∧ ∀ c ∈ t.data, pyWsp c = false

/-- All pronunciations non-empty and all tokens whitespace-free. -/
def spaceFree (lexicon : Lexicon) : Prop :=
  ∀ e ∈ lexicon, e.2 ≠ [] ∧ ∀ t ∈ e.2, goodTok t

/-- A token that does not begin with `#`, hence cannot be confused with a
disambiguation symbol appended by the assigner. -/
def noHashTok (t : String) : Prop :=
  t.data.head? ≠ some '#'

/-- No token of any pronunciation begins with `#`. -/
def hashFree (lexicon : Lexicon) : Prop :=
  ∀ e ∈ lexicon, ∀ t ∈ e.2, noHashTok t

instance (t : String) : Decidable (goodTok t) := by
  unfold goodTok; infer_instance

instance (lexicon : Lexicon) : Decidable (spaceFree lexicon) := by
  unfold spaceFree; infer_instance

instance (t : String) : Decidable (noHashTok t) := by
  unfold noHashTok; infer_instance

instance (lexicon : Lexicon) : Decidable (hashFree lexicon) := by
  unfold hashFree; infer_instance

theorem strMk_data (s : String) : String.mk s.data = s := rfl

theorem strData_inj {a b : String} (h : a.data = b.data) : a = b := by
  rw [← strMk_data a, ← strMk_data b, h]

theorem map_mk_data (ps : List String) :
    (ps.map String.data).map String.mk = ps := by
  induction ps with
  | nil => rfl
  | cons s rest ih => simp only [List.map_cons, strMk_data, ih]

theorem pySplit_phnKey (ps : List String) (h : ∀ t ∈ ps, goodTok t) :
    pySplitChars (phnKey ps) = ps.map String.data := by
  rw [phnKey]
  apply pySplit_join
  intro t ht
  rcases List.mem_map.mp ht with ⟨s, hs, rfl⟩
  exact h s hs

theorem phnKey_inj {ps qs : List String} (hp : ∀ t ∈ ps, goodTok t)
    (hq : ∀ t ∈ qs, goodTok t) (h : phnKey ps = phnKey qs) : ps = qs := by
  have h1 := pySplit_phnKey ps hp
  have h2 := pySplit_phnKey qs hq
  have hd : ps.map String.data = qs.map String.data := by
    rw [← h1, ← h2, h]
  have := congrArg (List.map String.mk) hd
  rwa [map_mk_data, map_mk_data] at this

theorem phnKey_ne_nil {ps : List String} (hne : ps ≠ [])
    (h : ∀ t ∈ ps, goodTok t) : phnKey ps ≠ [] := by
  match ps, hne with
  | [t], _ =>
    have := (h t (by simp)).1
    simpa [phnKey, joinChars] using this
  | t :: u :: ts, _ =>
    show joinChars (t.data :: u.data :: (ts.map String.data)) ≠ []
    show t.data ++ ' ' :: joinChars (u.data :: ts.map String.data) ≠ []
    simp

/-- Splitting `" ".join(prons) + " #k"` recovers the original tokens with
the disambiguation token appended, provided the tokens are well behaved. -/
theorem phnKey_rewrite (ps : List String) (h : ∀ t ∈ ps, goodTok t)
    (hne : ps ≠ []) (k : Nat) :
    (pySplitChars (phnKey ps ++ ' ' :: '#' :: natChars k)).map String.mk =
      ps ++ [hashTok k] := by
  have hjoin : phnKey ps ++ ' ' :: '#' :: natChars k =
      joinChars (ps.map String.data ++ ['#' :: natChars k]) := by
    rw [phnKey, joinChars_concat]
    intro hmap
    exact hne (List.map_eq_nil_iff.mp hmap)
  rw [hjoin, pySplit_join]
  · rw [List.map_append, map_mk_data]
    rfl
  · intro t ht
    rcases List.mem_append.mp ht with h1 | h2
    · rcases List.mem_map.mp h1 with ⟨s, hs, rfl⟩
      exact h s hs
    · simp at h2
      subst h2
      refine ⟨by simp, ?_⟩
      intro c hc
      rcases List.mem_cons.mp hc with rfl | hc'
      · rfl
      · exact pyWsp_of_digit c (natChars_digits k c hc')

/-! ## Semantics of the `count` map (step 1) -/

theorem mkCount_foldl (lexicon : Lexicon) :
    ∀ (m : List Char → Nat) (K : List Char),
      (lexicon.foldl
        (fun m e => upd m (phnKey e.2) (m (phnKey e.2) + 1)) m) K =
      m K + lexicon.countP (fun e => phnKey e.2 == K) := by
  induction lexicon with
  | nil => intro m K; simp
  | cons e rest ih =>
    intro m K
    rw [List.foldl_cons, ih, List.countP_cons]
    by_cases hK : K = phnKey e.2
    · subst hK
      simp only [upd, if_pos rfl, beq_self_eq_true, if_true]
      omega
    · have hbeq : (phnKey e.2 == K) = false := by
        simp only [beq_eq_false_iff_ne, ne_eq]
        exact fun hh => hK hh.symm
      rw [hbeq]
      simp [upd, hK]

/-- The `count` defaultdict counts, for each joined key, the entries whose
pronunciation joins to that key. -/
theorem mkCount_eq (lexicon : Lexicon) (K : List Char) :
    mkCount lexicon K = lexicon.countP (fun e => phnKey e.2 == K) := by
  rw [mkCount, mkCount_foldl]
  simp

/-! ## Semantics of the `issubseq` map (step 2) -/

theorem dropLast_take {α : Type _} (l : List α) (n : Nat)
    (hn : n ≤ l.length - 1) : l.dropLast.take n = l.take n := by
  rw [List.dropLast_eq_take, List.take_take]
  have : min n (l.length - 1) = n := by omega
  rw [this]

theorem markSubseqsAux_spec : ∀ (fuel : Nat) (prons : List String)
    (m : List Char → Nat) (K : List Char), prons.length ≤ fuel →
    (markSubseqsAux fuel m prons K ≠ 0 ↔
      m K ≠ 0 ∨ ∃ n, 1 ≤ n ∧ n ≤ prons.length ∧ K = phnKey (prons.take n))
  | 0, prons, m, K, hle => by
    have hp : prons = [] := List.length_eq_zero.mp (by omega)
    subst hp
    simp only [markSubseqsAux, List.length_nil]
    constructor
    · intro hm
      exact Or.inl hm
    · rintro (hm | ⟨n, h1, h2, _⟩)
      · exact hm
      · omega
  | fuel + 1, [], m, K, _ => by
    simp only [markSubseqsAux, List.length_nil]
    constructor
    · intro hm
      exact Or.inl hm
    · rintro (hm | ⟨n, h1, h2, _⟩)
      · exact hm
      · omega
  | fuel + 1, p :: ps, m, K, hle => by
    have hdl : ((p :: ps).dropLast).length = ps.length := by simp
    have ih := markSubseqsAux_spec fuel ((p :: ps).dropLast)
      (upd m (phnKey (p :: ps)) 1) K (by rw [hdl]; simp at hle; omega)
    have hstep : markSubseqsAux (fuel + 1) m (p :: ps) K =
        markSubseqsAux fuel (upd m (phnKey (p :: ps)) 1)
          ((p :: ps).dropLast) K := rfl
    rw [hstep, ih]
    have hupd : (upd m (phnKey (p :: ps)) 1 K ≠ 0) ↔
        (K = phnKey (p :: ps) ∨ m K ≠ 0) := by
      rw [upd]
      by_cases h : K = phnKey (p :: ps) <;> simp [h]
    rw [hupd]
    constructor
    · rintro ((hK | hm) | ⟨n, h1, h2, h3⟩)
      · refine Or.inr ⟨ps.length + 1, by omega, by simp, ?_⟩
        have : (p :: ps).take (ps.length + 1) = p :: ps := by simp
        rw [this]
        exact hK
      · exact Or.inl hm
      · rw [hdl] at h2
        refine Or.inr ⟨n, h1, by simp; omega, ?_⟩
        rw [h3, dropLast_take]
        simp
        omega
    · rintro (hm | ⟨n, h1, h2, h3⟩)
      · exact Or.inl (Or.inr hm)
      · simp at h2
        by_cases hn : n ≤ ps.length
        · refine Or.inr ⟨n, h1, by rw [hdl]; exact hn, ?_⟩
          rw [h3, dropLast_take]
          simp
          omega
        · have hn' : n = ps.length + 1 := by omega
          subst hn'
          have : (p :: ps).take (ps.length + 1) = p :: ps := by simp
          rw [this] at h3
          exact Or.inl (Or.inl h3)

theorem mkIssubseqAux_ok : ∀ (lexicon : Lexicon) (m : List Char → Nat),
    (∀ e ∈ lexicon, e.2 ≠ []) →
    ∃ isq, mkIssubseqAux m lexicon = .ok isq ∧
      ∀ K, (isq K ≠ 0 ↔ m K ≠ 0 ∨
        ∃ e ∈ lexicon, ∃ n, 1 ≤ n ∧ n < e.2.length ∧ K = phnKey (e.2.take n))
  | [], m, _ => ⟨m, rfl, by simp⟩
  | e :: rest, m, hne => by
    have he : e.2 ≠ [] := hne e (by simp)
    have hlen : 1 ≤ e.2.length := by
      cases h2 : e.2 with
      | nil => exact absurd h2 he
      | cons a l => simp
    rcases mkIssubseqAux_ok rest (markSubseqs m e.2.dropLast)
      (fun x hx => hne x (List.mem_cons_of_mem e hx)) with ⟨isq, hok, hch⟩
    refine ⟨isq, ?_, ?_⟩
    · show (if e.2 = [] then Except.error LexErr.indexErrorPopEmpty
        else mkIssubseqAux (markSubseqs m e.2.dropLast) rest) = .ok isq
      rw [if_neg he, hok]
    · intro K
      rw [hch K]
      have hmark : (markSubseqs m e.2.dropLast K ≠ 0) ↔
          (m K ≠ 0 ∨ ∃ n, 1 ≤ n ∧ n < e.2.length ∧ K = phnKey (e.2.take n)) := by
        rw [markSubseqs, markSubseqsAux_spec _ _ _ _ (le_refl _)]
        constructor
        · rintro (hm | ⟨n, h1, h2, h3⟩)
          · exact Or.inl hm
          · simp only [List.length_dropLast] at h2
            refine Or.inr ⟨n, h1, by omega, ?_⟩
            rw [h3, dropLast_take]
            omega
        · rintro (hm | ⟨n, h1, h2, h3⟩)
          · exact Or.inl hm
          · refine Or.inr ⟨n, h1, by simp only [List.length_dropLast]; omega, ?_⟩
            rw [h3, dropLast_take]
            omega
      rw [hmark]
      simp only [List.mem_cons]
      constructor
      · rintro ((hm | hend) | ⟨x, hx, hC⟩)
        · exact Or.inl hm
        · exact Or.inr ⟨e, Or.inl rfl, hend⟩
        · exact Or.inr ⟨x, Or.inr hx, hC⟩
      · rintro (hm | ⟨x, (rfl | hx), hC⟩)
        · exact Or.inl (Or.inl hm)
        · exact Or.inl (Or.inr hC)
        · exact Or.inr ⟨x, hx, hC⟩

/-! ## Characterisation of step (3) on well-behaved lexicons -/

/-- Reference form of the step-(3) output on whitespace-free tokens: a kept
entry is returned as is, a rewritten entry gets `#k` appended as one new
token.  `last` mirrors the `last_used_disambig_symbol_of` defaultdict. -/
def pass3Pure (count issubseq : List Char → Nat) :
    (List Char → Nat) → Lexicon → Lexicon
  | _, [] => []
  | last, e :: rest =>
    if issubseq (phnKey e.2) = 0 ∧ count (phnKey e.2) = 1 then
      e :: pass3Pure count issubseq last rest
    else
      (e.1, e.2 ++ [hashTok (if last (phnKey e.2) = 0 then 1
          else last (phnKey e.2) + 1)]) ::
        pass3Pure count issubseq
          (upd last (phnKey e.2) (if last (phnKey e.2) = 0 then 1
            else last (phnKey e.2) + 1)) rest

theorem pass3_bridge (count issubseq : List Char → Nat) :
    ∀ (lex : Lexicon) (st : P3State),
    (∀ e ∈ lex, e.2 ≠ [] ∧ ∀ t ∈ e.2, goodTok t) →
    ∃ st', pass3 count issubseq lex st = .ok st' ∧
      st'.ans = st.ans ++ pass3Pure count issubseq st.lastUsed lex
  | [], st, _ => ⟨st, rfl, by simp [pass3Pure]⟩
  | e :: rest, st, hg => by
    have hge := hg e (by simp)
    have hKne : phnKey e.2 ≠ [] := phnKey_ne_nil hge.1 hge.2
    have hgrest : ∀ x ∈ rest, x.2 ≠ [] ∧ ∀ t ∈ x.2, goodTok t :=
      fun x hx => hg x (List.mem_cons_of_mem e hx)
    by_cases hkept : issubseq (phnKey e.2) = 0 ∧ count (phnKey e.2) = 1
    · have hstep : p3step count issubseq st e =
          Except.ok { st with ans := st.ans ++ [e] } := by
        simp only [p3step]
        rw [if_neg hKne, if_pos hkept]
      rcases pass3_bridge count issubseq rest { st with ans := st.ans ++ [e] }
        hgrest with ⟨st', hok, hans⟩
      refine ⟨st', ?_, ?_⟩
      · show (match p3step count issubseq st e with
          | Except.error er => Except.error er
          | Except.ok s => pass3 count issubseq rest s) = Except.ok st'
        rw [hstep]
        exact hok
      · rw [hans]
        show st.ans ++ [e] ++ _ =
          st.ans ++ pass3Pure count issubseq st.lastUsed (e :: rest)
        rw [pass3Pure, if_pos hkept]
        simp
    · have hrw := phnKey_rewrite e.2 hge.2 hge.1
        (if st.lastUsed (phnKey e.2) = 0 then 1 else st.lastUsed (phnKey e.2) + 1)
      obtain ⟨st2, hstep, hans2, hlast2⟩ :
          ∃ st2, p3step count issubseq st e = Except.ok st2 ∧
            st2.ans = st.ans ++ [(e.1, e.2 ++
              [hashTok (if st.lastUsed (phnKey e.2) = 0 then 1
                else st.lastUsed (phnKey e.2) + 1)])] ∧
            st2.lastUsed = upd st.lastUsed (phnKey e.2)
              (if st.lastUsed (phnKey e.2) = 0 then 1
                else st.lastUsed (phnKey e.2) + 1) := by
        simp only [p3step]
        rw [if_neg hKne, if_neg hkept]
        exact ⟨_, rfl, by rw [hrw], rfl⟩
      rcases pass3_bridge count issubseq rest st2 hgrest with ⟨st', hok, hans⟩
      refine ⟨st', ?_, ?_⟩
      · show (match p3step count issubseq st e with
          | Except.error er => Except.error er
          | Except.ok s => pass3 count issubseq rest s) = Except.ok st'
        rw [hstep]
        exact hok
      · rw [hans, hans2, hlast2]
        show st.ans ++ [_] ++ _ =
          st.ans ++ pass3Pure count issubseq st.lastUsed (e :: rest)
        rw [pass3Pure, if_neg hkept]
        simp

theorem pass3_kept (count issubseq : List Char → Nat) :
    ∀ (lex : Lexicon) (st : P3State),
    (∀ e ∈ lex, phnKey e.2 ≠ []) →
    (∀ e ∈ lex, issubseq (phnKey e.2) = 0 ∧ count (phnKey e.2) = 1) →
    pass3 count issubseq lex st =
      .ok ⟨st.ans ++ lex, st.maxDisambig, st.lastUsed⟩
  | [], st, _, _ => by
    cases st
    simp [pass3]
  | e :: rest, st, hne, hk => by
    have hstep : p3step count issubseq st e =
        Except.ok { st with ans := st.ans ++ [e] } := by
      simp only [p3step]
      rw [if_neg (hne e (by simp)), if_pos (hk e (by simp))]
    show (match p3step count issubseq st e with
      | Except.error er => Except.error er
      | Except.ok s => pass3 count issubseq rest s) = _
    rw [hstep]
    show pass3 count issubseq rest
      { ans := st.ans ++ [e], maxDisambig := st.maxDisambig,
        lastUsed := st.lastUsed } = _
    rw [pass3_kept count issubseq rest _
      (fun x hx => hne x (List.mem_cons_of_mem e hx))
      (fun x hx => hk x (List.mem_cons_of_mem e hx))]
    simp

theorem pass3Pure_length (count issubseq : List Char → Nat) :
    ∀ (lex : Lexicon) (last : List Char → Nat),
    (pass3Pure count issubseq last lex).length = lex.length
  | [], _ => rfl
  | e :: rest, last => by
    rw [pass3Pure]
    split
    · simp [pass3Pure_length count issubseq rest]
    · simp [pass3Pure_length count issubseq rest]

theorem pass3Pure_get (count issubseq : List Char → Nat) :
    ∀ (lex : Lexicon) (last : List Char → Nat) (i : Nat)
      (e : String × List String), lex.get? i = some e →
      ((issubseq (phnKey e.2) = 0 ∧ count (phnKey e.2) = 1) →
        (pass3Pure count issubseq last lex).get? i = some e) ∧
      (¬(issubseq (phnKey e.2) = 0 ∧ count (phnKey e.2) = 1) →
        (pass3Pure count issubseq last lex).get? i =
          some (e.1, e.2 ++
            [hashTok ((if last (phnKey e.2) = 0 then 1
                else last (phnKey e.2) + 1) +
              (lex.take i).countP (fun x => phnKey x.2 == phnKey e.2))]))
  | [], _, i, e, hget => by simp at hget
  | f :: rest, last, i, e, hget => by
    by_cases hkf : issubseq (phnKey f.2) = 0 ∧ count (phnKey f.2) = 1
    · have hpp : pass3Pure count issubseq last (f :: rest) =
          f :: pass3Pure count issubseq last rest := by
        rw [pass3Pure, if_pos hkf]
      cases i with
      | zero =>
        simp only [List.get?_cons_zero, Option.some.injEq] at hget
        subst hget
        constructor
        · intro _
          rw [hpp]
          rfl
        · intro hmk
          exact absurd hkf hmk
      | succ j =>
        simp only [List.get?_cons_succ] at hget
        have ih := pass3Pure_get count issubseq rest last j e hget
        constructor
        · intro hk
          rw [hpp, List.get?_cons_succ]
          exact ih.1 hk
        · intro hmk
          rw [hpp, List.get?_cons_succ, ih.2 hmk]
          have hfK : (phnKey f.2 == phnKey e.2) = false := by
            simp only [beq_eq_false_iff_ne, ne_eq]
            intro hKK
            rw [hKK] at hkf
            exact hmk hkf
          rw [List.take_succ_cons, List.countP_cons, hfK]
          simp
    · cases i with
      | zero =>
        simp only [List.get?_cons_zero, Option.some.injEq] at hget
        constructor
        · intro hk
          rw [← hget] at hk
          exact absurd hk hkf
        · intro _
          rw [pass3Pure, if_neg hkf]
          simp only [List.get?_cons_zero, Option.some.injEq]
          rw [← hget]
          simp
      | succ j =>
        simp only [List.get?_cons_succ] at hget
        have hpp : pass3Pure count issubseq last (f :: rest) =
            (f.1, f.2 ++ [hashTok (if last (phnKey f.2) = 0 then 1
                else last (phnKey f.2) + 1)]) ::
              pass3Pure count issubseq
                (upd last (phnKey f.2) (if last (phnKey f.2) = 0 then 1
                  else last (phnKey f.2) + 1)) rest := by
          rw [pass3Pure, if_neg hkf]
        have ih := pass3Pure_get count issubseq rest
          (upd last (phnKey f.2) (if last (phnKey f.2) = 0 then 1
            else last (phnKey f.2) + 1)) j e hget
        constructor
        · intro hk
          rw [hpp, List.get?_cons_succ]
          exact ih.1 hk
        · intro hmk
          rw [hpp, List.get?_cons_succ, ih.2 hmk]
          rw [List.take_succ_cons, List.countP_cons]
          by_cases hKK : phnKey f.2 = phnKey e.2
          · have hbeq : (phnKey f.2 == phnKey e.2) = true := by
              simp [hKK]
            rw [hbeq, hKK]
            rw [show (if (true : Bool) = true then 1 else 0) = 1 from rfl]
            rw [upd_self]
            generalize (if last (phnKey e.2) = 0 then 1
              else last (phnKey e.2) + 1) = cur
            generalize List.countP (fun x => phnKey x.2 == phnKey e.2)
              (List.take j rest) = cnt
            have harith : (if cur = 0 then 1 else cur + 1) + cnt =
                cur + (cnt + 1) := by
              split_ifs <;> omega
            rw [harith]
          · have hbeq : (phnKey f.2 == phnKey e.2) = false := by
              simp [hKK]
            rw [hbeq]
            rw [show (if (false : Bool) = true then 1 else 0) = 0 from rfl]
            rw [upd_other last (phnKey f.2) _ (phnKey e.2)
              (fun hh => hKK hh.symm)]
            simp

/-! ## The assigner on well-behaved lexicons: master characterisation -/

/-- The final `issubseq` map of step (2), as a total accessor (the error
case never occurs when every pronunciation is non-empty). -/
def issubseqMap (lexicon : Lexicon) : List Char → Nat :=
  match mkIssubseqAux (fun _ => 0) lexicon with
  | .error _ => fun _ => 0
  | .ok m => m

theorem issubseqMap_spec (lexicon : Lexicon)
    (hne : ∀ e ∈ lexicon, e.2 ≠ []) (K : List Char) :
    issubseqMap lexicon K ≠ 0 ↔
      ∃ e ∈ lexicon, ∃ n, 1 ≤ n ∧ n < e.2.length ∧
        K = phnKey (e.2.take n) := by
  rcases mkIssubseqAux_ok lexicon (fun _ => 0) hne with ⟨isq, hok, hch⟩
  have : issubseqMap lexicon = isq := by
    rw [issubseqMap, hok]
  rw [this]
  rw [hch K]
  simp

theorem add_disambig_out (lexicon : Lexicon) (hs : spaceFree lexicon) :
    ∃ res, add_disambig_symbols lexicon = .ok res ∧
      res.1 = pass3Pure (mkCount lexicon) (issubseqMap lexicon)
        (fun _ => 0) lexicon := by
  have hne : ∀ e ∈ lexicon, e.2 ≠ [] := fun e he => (hs e he).1
  rcases mkIssubseqAux_ok lexicon (fun _ => 0) hne with ⟨isq, hok, _⟩
  have hisq : issubseqMap lexicon = isq := by
    rw [issubseqMap, hok]
  rcases pass3_bridge (mkCount lexicon) isq lexicon ⟨[], 0, fun _ => 0⟩
    (fun e he => hs e he) with ⟨st', hok3, hans⟩
  refine ⟨(st'.ans, st'.maxDisambig), ?_, ?_⟩
  · show (match mkIssubseqAux (fun _ => 0) lexicon with
      | Except.error er => Except.error er
      | Except.ok issubseq =>
        match pass3 (mkCount lexicon) issubseq lexicon ⟨[], 0, fun _ => 0⟩ with
        | Except.error er => Except.error er
        | Except.ok st => Except.ok (st.ans, st.maxDisambig)) =
      Except.ok (st'.ans, st'.maxDisambig)
    rw [hok]
    show (match pass3 (mkCount lexicon) isq lexicon ⟨[], 0, fun _ => 0⟩ with
      | Except.error er => Except.error er
      | Except.ok st => Except.ok (st.ans, st.maxDisambig)) = _
    rw [hok3]
  · rw [hisq]
    rw [hans]
    simp

theorem add_disambig_len (lexicon : Lexicon) (hs : spaceFree lexicon)
    (res : Lexicon × Nat) (hres : add_disambig_symbols lexicon = .ok res) :
    res.1.length = lexicon.length := by
  rcases add_disambig_out lexicon hs with ⟨res', hres', hpp⟩
  rw [hres] at hres'
  have : res = res' := by
    have := hres'
    injection this with h
  rw [this, hpp, pass3Pure_length]

/-- Entry-level description of the assigner's output on a whitespace-free
lexicon: a kept entry is returned unchanged; a rewritten entry gets `#k`
appended, where `k - 1` counts the earlier entries with the same key. -/
theorem add_disambig_entry (lexicon : Lexicon) (hs : spaceFree lexicon)
    (res : Lexicon × Nat) (hres : add_disambig_symbols lexicon = .ok res)
    (i : Nat) (e : String × List String) (hget : lexicon.get? i = some e) :
    ((issubseqMap lexicon (phnKey e.2) = 0 ∧
        mkCount lexicon (phnKey e.2) = 1) →
      res.1.get? i = some e) ∧
    (¬(issubseqMap lexicon (phnKey e.2) = 0 ∧
        mkCount lexicon (phnKey e.2) = 1) →
      res.1.get? i = some (e.1, e.2 ++
        [hashTok (1 + (lexicon.take i).countP
          (fun x => phnKey x.2 == phnKey e.2))])) := by
  rcases add_disambig_out lexicon hs with ⟨res', hres', hpp⟩
  rw [hres] at hres'
  have hrr : res = res' := by injection hres' with h
  subst hrr
  rw [hpp]
  have hg := pass3Pure_get (mkCount lexicon) (issubseqMap lexicon) lexicon
    (fun _ => 0) i e hget
  refine ⟨hg.1, ?_⟩
  intro hmk
  rw [hg.2 hmk]
  simp

/-- When every entry satisfies the kept condition, the assigner is the
identity with maximal index 0 (no goodness assumptions needed). -/
theorem add_disambig_id (lexicon : Lexicon)
    (hne : ∀ e ∈ lexicon, e.2 ≠ [])
    (hkey : ∀ e ∈ lexicon, phnKey e.2 ≠ [])
    (hkept : ∀ e ∈ lexicon, issubseqMap lexicon (phnKey e.2) = 0 ∧
      mkCount lexicon (phnKey e.2) = 1) :
    add_disambig_symbols lexicon = .ok (lexicon, 0) := by
  rcases mkIssubseqAux_ok lexicon (fun _ => 0) hne with ⟨isq, hok, _⟩
  have hisq : issubseqMap lexicon = isq := by
    rw [issubseqMap, hok]
  rw [hisq] at hkept
  show (match mkIssubseqAux (fun _ => 0) lexicon with
    | Except.error er => Except.error er
    | Except.ok issubseq =>
      match pass3 (mkCount lexicon) issubseq lexicon ⟨[], 0, fun _ => 0⟩ with
      | Except.error er => Except.error er
      | Except.ok st => Except.ok (st.ans, st.maxDisambig)) =
    Except.ok (lexicon, 0)
  rw [hok]
  show (match pass3 (mkCount lexicon) isq lexicon ⟨[], 0, fun _ => 0⟩ with
    | Except.error er => Except.error er
    | Except.ok st => Except.ok (st.ans, st.maxDisambig)) = _
  rw [pass3_kept (mkCount lexicon) isq lexicon ⟨[], 0, fun _ => 0⟩ hkey hkept]
  simp

/-! ## Counting helpers -/

theorem countP_ge_two {α : Type _} (p : α → Bool) :
    ∀ (l : List α) (i j : Nat) (a b : α), i ≠ j →
      l.get? i = some a → l.get? j = some b →
      p a = true → p b = true → 2 ≤ l.countP p
  | [], i, _, _, _, _, ha, _, _, _ => by simp at ha
  | x :: t, 0, 0, a, b, hij, _, _, _, _ => absurd rfl hij
  | x :: t, 0, j + 1, a, b, _, ha, hb, hpa, hpb => by
    simp only [List.get?_cons_zero, Option.some.injEq] at ha
    simp only [List.get?_cons_succ] at hb
    have hbmem : b ∈ t := List.get?_mem hb
    have h1 : 0 < t.countP p := List.countP_pos_iff.mpr ⟨b, hbmem, hpb⟩
    rw [List.countP_cons]
    rw [← ha] at hpa
    rw [if_pos hpa]
    omega
  | x :: t, i + 1, 0, a, b, _, ha, hb, hpa, hpb => by
    simp only [List.get?_cons_zero, Option.some.injEq] at hb
    simp only [List.get?_cons_succ] at ha
    have hamem : a ∈ t := List.get?_mem ha
    have h1 : 0 < t.countP p := List.countP_pos_iff.mpr ⟨a, hamem, hpa⟩
    rw [List.countP_cons]
    rw [← hb] at hpb
    rw [if_pos hpb]
    omega
  | x :: t, i + 1, j + 1, a, b, hij, ha, hb, hpa, hpb => by
    simp only [List.get?_cons_succ] at ha hb
    have := countP_ge_two p t i j a b (by omega) ha hb hpa hpb
    rw [List.countP_cons]
    omega

theorem countP_eq_one_of {α : Type _} (p : α → Bool) :
    ∀ (l : List α) (i : Nat) (a : α), l.get? i = some a → p a = true →
      (∀ j b, j ≠ i → l.get? j = some b → p b = false) →
      l.countP p = 1
  | [], i, a, ha, _, _ => by simp at ha
  | x :: t, 0, a, ha, hpa, hother => by
    simp only [List.get?_cons_zero, Option.some.injEq] at ha
    have ht : t.countP p = 0 := by
      apply List.countP_eq_zero.mpr
      intro b hb
      rcases List.get?_of_mem hb with ⟨k, hk⟩
      have := hother (k + 1) b (by omega) (by
        simp only [List.get?_cons_succ]
        exact hk)
      simp [this]
    have hpx : p x = true := by rw [ha]; exact hpa
    rw [List.countP_cons, ht, if_pos hpx]
  | x :: t, i + 1, a, ha, hpa, hother => by
    simp only [List.get?_cons_succ] at ha
    have hx : p x = false := hother 0 x (by omega) rfl
    have ht : t.countP p = 1 :=
      countP_eq_one_of p t i a ha hpa (fun j b hj hb =>
        hother (j + 1) b (by omega) (by
          simp only [List.get?_cons_succ]
          exact hb))
    rw [List.countP_cons, ht, hx]
    simp

theorem countP_take_succ {α : Type _} (p : α → Bool) (l : List α) (n : Nat)
    (a : α) (ha : l.get? n = some a) (hpa : p a = true) :
    (l.take (n + 1)).countP p = (l.take n).countP p + 1 := by
  rw [List.take_succ]
  rw [← List.get?_eq_getElem?, ha]
  simp [List.countP_append, List.countP_cons, hpa]

theorem countP_take_le {α : Type _} (p : α → Bool) (l : List α) :
    ∀ (m n : Nat), m ≤ n → (l.take m).countP p ≤ (l.take n).countP p := by
  intro m n h
  induction n with
  | zero =>
    have : m = 0 := by omega
    subst this
    exact le_refl _
  | succ k ih =>
    by_cases hm : m = k + 1
    · subst hm
      exact le_refl _
    · have h1 : (l.take m).countP p ≤ (l.take k).countP p := ih (by omega)
      have h2 : (l.take k).countP p ≤ (l.take (k + 1)).countP p := by
        rw [List.take_succ, List.countP_append]
        omega
      omega

theorem countP_take_lt {α : Type _} (p : α → Bool) (l : List α)
    (i j : Nat) (hij : i < j) (a : α) (ha : l.get? i = some a)
    (hpa : p a = true) :
    (l.take i).countP p < (l.take j).countP p := by
  have h1 := countP_take_succ p l i a ha hpa
  have h2 := countP_take_le p l (i + 1) j (by omega)
  omega

/-! ## Output entries of the assigner -/

theorem hashTok_head (k : Nat) : (hashTok k).data.head? = some '#' := rfl

theorem out_entry_cases (lexicon : Lexicon) (hs : spaceFree lexicon)
    (res : Lexicon × Nat) (hres : add_disambig_symbols lexicon = .ok res)
    (i : Nat) (ei : String × List String) (hi : res.1.get? i = some ei) :
    ∃ e, lexicon.get? i = some e ∧
      ((issubseqMap lexicon (phnKey e.2) = 0 ∧
          mkCount lexicon (phnKey e.2) = 1) ∧ ei.2 = e.2 ∨
       ¬(issubseqMap lexicon (phnKey e.2) = 0 ∧
          mkCount lexicon (phnKey e.2) = 1) ∧
        ei.2 = e.2 ++ [hashTok (1 + (lexicon.take i).countP
          (fun x => phnKey x.2 == phnKey e.2))]) := by
  have hilt : i < res.1.length := by
    rcases List.get?_eq_some.mp hi with ⟨h, _⟩
    exact h
  have hlen := add_disambig_len lexicon hs res hres
  have hilex : i < lexicon.length := by omega
  have hge : lexicon.get? i = some (lexicon.get ⟨i, hilex⟩) :=
    List.get?_eq_get hilex
  refine ⟨lexicon.get ⟨i, hilex⟩, hge, ?_⟩
  have hent := add_disambig_entry lexicon hs res hres i _ hge
  by_cases hc : issubseqMap lexicon (phnKey (lexicon.get ⟨i, hilex⟩).2) = 0 ∧
      mkCount lexicon (phnKey (lexicon.get ⟨i, hilex⟩).2) = 1
  · left
    refine ⟨hc, ?_⟩
    have := hent.1 hc
    rw [hi] at this
    injection this with h
    rw [h]
  · right
    refine ⟨hc, ?_⟩
    have := hent.2 hc
    rw [hi] at this
    injection this with h
    rw [h]

/-- C1 (amended): on a lexicon whose tokens are non-empty, whitespace-free
and do not begin with `#`, the lexicon returned by `add_disambig_symbols`
is collision-free and prefix-free: entries at distinct positions have
unequal phone-sequences, and no entry's phone-sequence is a proper prefix
of another entry's. -/
theorem C1_assign_collision_and_pfx_free (lexicon : Lexicon)
    (hs : spaceFree lexicon) (hh : hashFree lexicon) (res : Lexicon × Nat)
    (hres : add_disambig_symbols lexicon = .ok res) :
    ∀ i j ei ej, i ≠ j → res.1.get? i = some ei → res.1.get? j = some ej →
      ei.2 ≠ ej.2 ∧ ¬∃ t, t ≠ [] ∧ ei.2 ++ t = ej.2 := by
  intro i j ei ej hij hi hj
  obtain ⟨e, hge, hcase_i⟩ := out_entry_cases lexicon hs res hres i ei hi
  obtain ⟨f, hgf, hcase_j⟩ := out_entry_cases lexicon hs res hres j ej hj
  have hmem_e : e ∈ lexicon := List.get?_mem hge
  have hmem_f : f ∈ lexicon := List.get?_mem hgf
  have hgood_e := hs e hmem_e
  have hgood_f := hs f hmem_f
  have hne_lex : ∀ x ∈ lexicon, x.2 ≠ [] := fun x hx => (hs x hx).1
  have hlen_e : 0 < e.2.length := List.length_pos.mpr hgood_e.1
  have hlen_f : 0 < f.2.length := List.length_pos.mpr hgood_f.1
  rcases hcase_i with ⟨hki, hi2⟩ | ⟨hmi, hi2⟩ <;>
    rcases hcase_j with ⟨hkj, hj2⟩ | ⟨hmj, hj2⟩ <;> rw [hi2, hj2]
  · -- both kept
    constructor
    · intro heq
      have hKeq : phnKey e.2 = phnKey f.2 := by rw [heq]
      have h2 : 2 ≤ lexicon.countP (fun x => phnKey x.2 == phnKey e.2) :=
        countP_ge_two _ lexicon i j e f hij hge hgf (by simp)
          (by simp [hKeq])
      have h1 := hki.2
      rw [mkCount_eq] at h1
      omega
    · rintro ⟨t, htne, happ⟩
      have htlen : 0 < t.length := List.length_pos.mpr htne
      have hnlt : e.2.length < f.2.length := by
        have := congrArg List.length happ
        simp only [List.length_append] at this
        omega
      have htake : f.2.take e.2.length = e.2 := by
        rw [← happ]
        exact List.take_left _ _
      have hns : issubseqMap lexicon (phnKey e.2) ≠ 0 := by
        rw [issubseqMap_spec lexicon hne_lex]
        exact ⟨f, hmem_f, e.2.length, by omega, hnlt, by rw [htake]⟩
      exact hns hki.1
  · -- i kept, j rewritten
    constructor
    · intro heq
      have hmem : hashTok (1 + (lexicon.take j).countP
          (fun x => phnKey x.2 == phnKey f.2)) ∈ e.2 := by
        rw [heq]
        simp
      exact hh e hmem_e _ hmem rfl
    · rintro ⟨t, htne, happ⟩
      have htlen : 0 < t.length := List.length_pos.mpr htne
      have hlen : e.2.length + t.length = f.2.length + 1 := by
        have h0 := congrArg List.length happ
        rw [List.length_append, List.length_append] at h0
        simp only [List.length_cons, List.length_nil] at h0
        omega
      by_cases hle : e.2.length = f.2.length
      · have hef : e.2 = f.2 := by
          calc e.2 = (e.2 ++ t).take e.2.length := (List.take_left _ _).symm
          _ = (f.2 ++ [hashTok (1 + (lexicon.take j).countP
              (fun x => phnKey x.2 == phnKey f.2))]).take e.2.length := by
            rw [happ]
          _ = f.2.take e.2.length :=
            List.take_append_of_le_length (by omega)
          _ = f.2 := by rw [hle]; exact List.take_length _
        have hKeq : phnKey e.2 = phnKey f.2 := by rw [hef]
        exact hmj (hKeq ▸ hki)
      · have hlt : e.2.length < f.2.length := by omega
        have htake : f.2.take e.2.length = e.2 := by
          calc f.2.take e.2.length
              = (f.2 ++ [hashTok (1 + (lexicon.take j).countP
                  (fun x => phnKey x.2 == phnKey f.2))]).take e.2.length :=
            (List.take_append_of_le_length (by omega)).symm
          _ = (e.2 ++ t).take e.2.length := by rw [happ]
          _ = e.2 := List.take_left _ _
        have hns : issubseqMap lexicon (phnKey e.2) ≠ 0 := by
          rw [issubseqMap_spec lexicon hne_lex]
          exact ⟨f, hmem_f, e.2.length, by omega, hlt, by rw [htake]⟩
        exact hns hki.1
  · -- i rewritten, j kept
    constructor
    · intro heq
      have hmem : hashTok (1 + (lexicon.take i).countP
          (fun x => phnKey x.2 == phnKey e.2)) ∈ f.2 := by
        rw [← heq]
        simp
      exact hh f hmem_f _ hmem rfl
    · rintro ⟨t, htne, happ⟩
      have hmem : hashTok (1 + (lexicon.take i).countP
          (fun x => phnKey x.2 == phnKey e.2)) ∈ f.2 := by
        rw [← happ]
        simp
      exact hh f hmem_f _ hmem rfl
  · -- both rewritten
    constructor
    · intro heq
      obtain ⟨hef, hhh⟩ := List.append_inj' heq (by simp)
      have hKeq : phnKey e.2 = phnKey f.2 := by rw [hef]
      have htok : hashTok (1 + (lexicon.take i).countP
          (fun x => phnKey x.2 == phnKey e.2)) =
        hashTok (1 + (lexicon.take j).countP
          (fun x => phnKey x.2 == phnKey f.2)) := by
        injection hhh
      have hci := hashTok_inj htok
      have hpe : (fun x => phnKey x.2 == phnKey f.2) e = true := by
        simp [hKeq]
      have hpf : (fun x => phnKey x.2 == phnKey f.2) f = true := by simp
      have hcnt_eq : (lexicon.take i).countP
          (fun x => phnKey x.2 == phnKey e.2) =
        (lexicon.take i).countP (fun x => phnKey x.2 == phnKey f.2) := by
        rw [hKeq]
      rcases Nat.lt_or_gt_of_ne hij with h | h
      · have := countP_take_lt (fun x => phnKey x.2 == phnKey f.2)
          lexicon i j h e hge hpe
        omega
      · have := countP_take_lt (fun x => phnKey x.2 == phnKey f.2)
          lexicon j i h f hgf hpf
        omega
    · rintro ⟨t, htne, happ⟩
      have htlen : 0 < t.length := List.length_pos.mpr htne
      have hlen : e.2.length + 1 + t.length = f.2.length + 1 := by
        have := congrArg List.length happ
        simp at this
        omega
      have hle : e.2.length + 1 ≤ f.2.length := by omega
      have hlenei : (e.2 ++ [hashTok (1 + (lexicon.take i).countP
          (fun x => phnKey x.2 == phnKey e.2))]).length = e.2.length + 1 := by
        simp
      have htake : f.2.take (e.2.length + 1) =
          e.2 ++ [hashTok (1 + (lexicon.take i).countP
            (fun x => phnKey x.2 == phnKey e.2))] := by
        calc f.2.take (e.2.length + 1)
            = (f.2 ++ [hashTok (1 + (lexicon.take j).countP
                (fun x => phnKey x.2 == phnKey f.2))]).take (e.2.length + 1) :=
          (List.take_append_of_le_length hle).symm
        _ = ((e.2 ++ [hashTok (1 + (lexicon.take i).countP
            (fun x => phnKey x.2 == phnKey e.2))]) ++ t).take
              (e.2.length + 1) := by rw [happ]
        _ = _ := by rw [← hlenei]; exact List.take_left _ _
      have hmem : hashTok (1 + (lexicon.take i).countP
          (fun x => phnKey x.2 == phnKey e.2)) ∈ f.2 := by
        have h1 : hashTok (1 + (lexicon.take i).countP
            (fun x => phnKey x.2 == phnKey e.2)) ∈
            f.2.take (e.2.length + 1) := by
          rw [htake]
          simp
        exact List.take_subset _ _ h1
      exact hh f hmem_f _ hmem rfl

/-! ## Error path and raw inversion of the assigner -/

theorem mkIssubseqAux_err : ∀ (lexicon : Lexicon) (m : List Char → Nat),
    (∃ e ∈ lexicon, e.2 = []) →
    mkIssubseqAux m lexicon = .error .indexErrorPopEmpty
  | [], _, h => by
    rcases h with ⟨e, he, _⟩
    simp at he
  | e :: rest, m, h => by
    show (if e.2 = [] then Except.error LexErr.indexErrorPopEmpty
      else mkIssubseqAux (markSubseqs m e.2.dropLast) rest) = _
    by_cases he : e.2 = []
    · rw [if_pos he]
    · rw [if_neg he]
      rcases h with ⟨f, hf, hf2⟩
      rcases List.mem_cons.mp hf with rfl | hfr
      · exact absurd hf2 he
      · exact mkIssubseqAux_err rest _ ⟨f, hfr, hf2⟩

theorem add_disambig_inv (lexicon : Lexicon) (res : Lexicon × Nat)
    (hres : add_disambig_symbols lexicon = .ok res) :
    ∃ st, pass3 (mkCount lexicon) (issubseqMap lexicon) lexicon
        ⟨[], 0, fun _ => 0⟩ = .ok st ∧ res = (st.ans, st.maxDisambig) := by
  have hres' : (match mkIssubseqAux (fun _ => 0) lexicon with
    | Except.error er => Except.error er
    | Except.ok issubseq =>
      match pass3 (mkCount lexicon) issubseq lexicon ⟨[], 0, fun _ => 0⟩ with
      | Except.error er => Except.error er
      | Except.ok st => Except.ok (st.ans, st.maxDisambig)) =
      Except.ok res := hres
  cases hok : mkIssubseqAux (fun _ => 0) lexicon with
  | error er => rw [hok] at hres'; simp at hres'
  | ok isq =>
    rw [hok] at hres'
    have hres2 : (match pass3 (mkCount lexicon) isq lexicon
        ⟨[], 0, fun _ => 0⟩ with
      | Except.error er => Except.error er
      | Except.ok st => Except.ok (st.ans, st.maxDisambig)) =
        Except.ok res := hres'
    have hisq : issubseqMap lexicon = isq := by
      rw [issubseqMap, hok]
    rw [hisq]
    cases hok3 : pass3 (mkCount lexicon) isq lexicon ⟨[], 0, fun _ => 0⟩ with
    | error er =>
      rw [hok3] at hres2
      simp at hres2
    | ok st =>
      rw [hok3] at hres2
      simp only [Except.ok.injEq] at hres2
      exact ⟨st, rfl, hres2.symm⟩

theorem pass3_out_raw (count issubseq : List Char → Nat) :
    ∀ (lex : Lexicon) (st st' : P3State),
      pass3 count issubseq lex st = .ok st' →
      ∃ outs, st'.ans = st.ans ++ outs ∧ outs.length = lex.length ∧
        ∀ i e, lex.get? i = some e →
          (issubseq (phnKey e.2) = 0 ∧ count (phnKey e.2) = 1) →
          outs.get? i = some e
  | [], st, st', h => by
    have hst : st = st' := by
      have h' : Except.ok st = Except.ok st' := h
      injection h'
    subst hst
    exact ⟨[], by simp, rfl, by intro i e hget; simp at hget⟩
  | e :: rest, st, st', h => by
    have h' : (match p3step count issubseq st e with
      | Except.error er => Except.error er
      | Except.ok s => pass3 count issubseq rest s) = Except.ok st' := h
    cases hstep : p3step count issubseq st e with
    | error er => rw [hstep] at h'; simp at h'
    | ok st2 =>
      rw [hstep] at h'
      rcases pass3_out_raw count issubseq rest st2 st' h' with
        ⟨outs, hans, hlen, hch⟩
      by_cases hkey : phnKey e.2 = []
      · rw [p3step] at hstep
        rw [if_pos hkey] at hstep
        simp at hstep
      · by_cases hkept : issubseq (phnKey e.2) = 0 ∧ count (phnKey e.2) = 1
        · have hst2 : st2 = { st with ans := st.ans ++ [e] } := by
            rw [p3step] at hstep
            rw [if_neg hkey, if_pos hkept] at hstep
            injection hstep with h2
            exact h2.symm
          refine ⟨e :: outs, ?_, by simp [hlen], ?_⟩
          · rw [hans, hst2]
            simp
          · intro i x hget hcondx
            cases i with
            | zero =>
              simp only [List.get?_cons_zero, Option.some.injEq] at hget ⊢
              exact hget
            | succ k =>
              simp only [List.get?_cons_succ] at hget ⊢
              exact hch k x hget hcondx
        · obtain ⟨v, hst2ans⟩ : ∃ v, st2.ans = st.ans ++ [v] := by
            rw [p3step] at hstep
            rw [if_neg hkey, if_neg hkept] at hstep
            injection hstep with h2
            exact ⟨_, by rw [← h2]⟩
          refine ⟨v :: outs, ?_, by simp [hlen], ?_⟩
          · rw [hans, hst2ans]
            simp
          · intro i x hget hcondx
            cases i with
            | zero =>
              simp only [List.get?_cons_zero, Option.some.injEq] at hget
              rw [← hget] at hcondx
              exact absurd hcondx hkept
            | succ k =>
              simp only [List.get?_cons_succ] at hget ⊢
              exact hch k x hget hcondx

/-- C1 counterexample: on the (whitespace-free, all pronunciations
non-empty) lexicon `[("X",["a"]), ("Y",["a"]), ("Z",["a","#1"])]` the code
rewrites `X` to `["a","#1"]`, which collides with the untouched entry `Z`:
the output entries at positions 0 and 2 have equal phone-sequences, so the
claim as stated (for every lexicon with non-empty pronunciations) is
false. -/
theorem C1_counterexample :
    (∀ e ∈ ([("X", ["a"]), ("Y", ["a"]), ("Z", ["a", "#1"])] : Lexicon),
      e.2 ≠ []) ∧
    add_disambig_symbols [("X", ["a"]), ("Y", ["a"]), ("Z", ["a", "#1"])] =
      .ok ([("X", ["a", "#1"]), ("Y", ["a", "#2"]), ("Z", ["a", "#1"])],
        2) ∧
    (([("X", ["a", "#1"]), ("Y", ["a", "#2"]), ("Z", ["a", "#1"])] :
      Lexicon).get? 0).map Prod.snd =
      (([("X", ["a", "#1"]), ("Y", ["a", "#2"]), ("Z", ["a", "#1"])] :
        Lexicon).get? 2).map Prod.snd := by
  refine ⟨by decide, by decide, by decide⟩

/-- C1 witness: the amended theorem applied to Scenario B's lexicon at the
output positions 0 and 1. -/
theorem C1_witness :
    spaceFree [("CAT", ["k", "a", "t"]), ("CATS", ["k", "a", "t", "s"])] ∧
    hashFree [("CAT", ["k", "a", "t"]), ("CATS", ["k", "a", "t", "s"])] ∧
    add_disambig_symbols
      [("CAT", ["k", "a", "t"]), ("CATS", ["k", "a", "t", "s"])] =
      .ok ([("CAT", ["k", "a", "t", "#1"]),
            ("CATS", ["k", "a", "t", "s"])], 1) ∧
    ((["k", "a", "t", "#1"] : List String) ≠ ["k", "a", "t", "s"] ∧
      ¬∃ t, t ≠ [] ∧
        (["k", "a", "t", "#1"] : List String) ++ t = ["k", "a", "t", "s"]) :=
  ⟨by decide, by decide, by decide,
    C1_assign_collision_and_pfx_free
      [("CAT", ["k", "a", "t"]), ("CATS", ["k", "a", "t", "s"])]
      (by decide) (by decide)
      ([("CAT", ["k", "a", "t", "#1"]), ("CATS", ["k", "a", "t", "s"])], 1)
      (by decide) 0 1 ("CAT", ["k", "a", "t", "#1"])
      ("CATS", ["k", "a", "t", "s"]) (by decide) (by decide) (by decide)⟩

/-- C4 (amended): a lexicon containing an empty pronunciation makes
`add_disambig_symbols` fail, but with the `IndexError` raised by
`prons.pop()` on the empty copy in step (2) — an error value that carries
no word, not a validation error naming the offending word. -/
theorem C4_empty_pron_fails (lexicon : Lexicon)
    (hempty : ∃ e ∈ lexicon, e.2 = []) :
    add_disambig_symbols lexicon = .error .indexErrorPopEmpty := by
  show (match mkIssubseqAux (fun _ => 0) lexicon with
    | Except.error er => Except.error er
    | Except.ok issubseq =>
      match pass3 (mkCount lexicon) issubseq lexicon ⟨[], 0, fun _ => 0⟩ with
      | Except.error er => Except.error er
      | Except.ok st => Except.ok (st.ans, st.maxDisambig)) =
    Except.error LexErr.indexErrorPopEmpty
  rw [mkIssubseqAux_err lexicon _ hempty]

/-- C4 counterexample: on `[("W", [])]` the code fails with the
word-free `IndexError` from popping the empty pronunciation — the error
value is a bare constructor that does not list the offending word `"W"`,
contrary to the claim. -/
theorem C4_counterexample :
    add_disambig_symbols [("W", ([] : List String))] =
      .error LexErr.indexErrorPopEmpty := by decide

/-- C4 witness: the amended theorem applied to a two-entry lexicon whose
second pronunciation is empty. -/
theorem C4_witness :
    (∃ e ∈ ([("A", ["a"]), ("W", [])] : Lexicon), e.2 = []) ∧
    add_disambig_symbols [("A", ["a"]), ("W", ([] : List String))] =
      .error LexErr.indexErrorPopEmpty :=
  ⟨by decide, C4_empty_pron_fails [("A", ["a"]), ("W", [])] (by decide)⟩

/-- C5: disambiguation indices are allocated per key in lexicon order
starting at 1: a rewritten entry at position `i` receives index
`1 + (number of earlier entries with the same joined key)`, so the first
ambiguous occurrence of a key gets `#1`, the next `#2`, and so on; and
Scenario A evaluates as specified. -/
theorem C5_index_allocation :
    (∀ (lexicon : Lexicon), spaceFree lexicon →
      ∀ res, add_disambig_symbols lexicon = .ok res →
      ∀ i e, lexicon.get? i = some e →
        ¬(issubseqMap lexicon (phnKey e.2) = 0 ∧
          mkCount lexicon (phnKey e.2) = 1) →
        res.1.get? i = some (e.1, e.2 ++
          [hashTok (1 + (lexicon.take i).countP
            (fun x => phnKey x.2 == phnKey e.2))])) ∧
    add_disambig_symbols [("A", ["a"]), ("B", ["a"])] =
      .ok ([("A", ["a", "#1"]), ("B", ["a", "#2"])], 2) := by
  constructor
  · intro lexicon hs res hres i e hget hmk
    exact (add_disambig_entry lexicon hs res hres i e hget).2 hmk
  · decide

/-- C5 witness: the allocation formula applied to Scenario A's second
entry, which receives index 2. -/
theorem C5_witness :
    spaceFree [("A", ["a"]), ("B", ["a"])] ∧
    ¬(issubseqMap [("A", ["a"]), ("B", ["a"])] (phnKey ["a"]) = 0 ∧
      mkCount [("A", ["a"]), ("B", ["a"])] (phnKey ["a"]) = 1) ∧
    (([("A", ["a", "#1"]), ("B", ["a", "#2"])] : Lexicon).get? 1 =
      some ("B", ["a", "#2"])) :=
  ⟨by decide, by decide,
    C5_index_allocation.1 [("A", ["a"]), ("B", ["a"])] (by decide)
      ([("A", ["a", "#1"]), ("B", ["a", "#2"])], 2) (by decide)
      1 ("B", ["a"]) (by decide) (by decide)⟩

/-- C6: in Scenario B the entry `CAT`, whose key is a proper prefix of the
key of `CATS`, is rewritten to `["k","a","t","#1"]` even though its key is
globally unique, `CATS` is returned unchanged, and the maximal
disambiguation index is 1. -/
theorem C6_pfx_collision_scenarioB :
    add_disambig_symbols
      [("CAT", ["k", "a", "t"]), ("CATS", ["k", "a", "t", "s"])] =
      .ok ([("CAT", ["k", "a", "t", "#1"]),
            ("CATS", ["k", "a", "t", "s"])], 1) := by decide

/-- C7: an entry whose joined phone-sequence key is counted exactly once
and is not marked as a sub-sequence is returned unchanged (first conjunct,
for arbitrary lexicons, in the key vocabulary the code itself uses); and
on a whitespace-free lexicon, an entry whose pronunciation occurs exactly
once as a token list and is not a proper prefix of any entry's
pronunciation is returned unchanged (second conjunct). -/
theorem C7_unique_entry_unchanged :
    (∀ (lexicon : Lexicon) (res : Lexicon × Nat),
      add_disambig_symbols lexicon = .ok res →
      ∀ i e, lexicon.get? i = some e →
        issubseqMap lexicon (phnKey e.2) = 0 →
        mkCount lexicon (phnKey e.2) = 1 →
        res.1.get? i = some e) ∧
    (∀ (lexicon : Lexicon), spaceFree lexicon →
      ∀ res, add_disambig_symbols lexicon = .ok res →
      ∀ i e, lexicon.get? i = some e →
        (∀ j f, j ≠ i → lexicon.get? j = some f → f.2 ≠ e.2) →
        (∀ f ∈ lexicon, ¬∃ t, t ≠ [] ∧ e.2 ++ t = f.2) →
        res.1.get? i = some e) := by
  constructor
  · intro lexicon res hres i e hget h1 h2
    obtain ⟨st, hok3, hresq⟩ := add_disambig_inv lexicon res hres
    rcases pass3_out_raw (mkCount lexicon) (issubseqMap lexicon) lexicon
      _ st hok3 with ⟨outs, hans, _, hch⟩
    have hr1 : res.1 = outs := by
      rw [hresq]
      show st.ans = outs
      rw [hans]
      simp
    rw [hr1]
    exact hch i e hget ⟨h1, h2⟩
  · intro lexicon hs res hres i e hget hun hpf
    have hmem_e : e ∈ lexicon := List.get?_mem hget
    have hgood_e := hs e hmem_e
    have hcnt : mkCount lexicon (phnKey e.2) = 1 := by
      rw [mkCount_eq]
      apply countP_eq_one_of _ lexicon i e hget (by simp)
      intro j f hj hgf
      simp only [beq_eq_false_iff_ne, ne_eq]
      intro hKeq
      have hgood_f := hs f (List.get?_mem hgf)
      exact hun j f hj hgf (phnKey_inj hgood_f.2 hgood_e.2 hKeq)
    have hisq : issubseqMap lexicon (phnKey e.2) = 0 := by
      by_contra hne0
      rcases (issubseqMap_spec lexicon (fun x hx => (hs x hx).1)
        (phnKey e.2)).mp hne0 with ⟨f, hmf, n, h1n, h2n, hKeq⟩
      have hgood_f := hs f hmf
      have he2 : e.2 = f.2.take n := phnKey_inj hgood_e.2
        (fun t ht => hgood_f.2 t (List.take_subset _ _ ht)) hKeq
      refine hpf f hmf ⟨f.2.drop n, ?_, ?_⟩
      · have hld : (f.2.drop n).length = f.2.length - n :=
          List.length_drop _ _
        intro hdn
        rw [hdn] at hld
        simp at hld
        omega
      · rw [he2]
        exact List.take_append_drop n f.2
    exact (add_disambig_entry lexicon hs res hres i e hget).1 ⟨hisq, hcnt⟩

/-- C7 witness: the key-level statement applied to Scenario B's `CATS`
entry, which is returned unchanged. -/
theorem C7_witness :
    issubseqMap [("CAT", ["k", "a", "t"]), ("CATS", ["k", "a", "t", "s"])]
      (phnKey ["k", "a", "t", "s"]) = 0 ∧
    mkCount [("CAT", ["k", "a", "t"]), ("CATS", ["k", "a", "t", "s"])]
      (phnKey ["k", "a", "t", "s"]) = 1 ∧
    (([("CAT", ["k", "a", "t", "#1"]), ("CATS", ["k", "a", "t", "s"])] :
      Lexicon).get? 1 = some ("CATS", ["k", "a", "t", "s"])) :=
  ⟨by decide, by decide,
    C7_unique_entry_unchanged.1
      [("CAT", ["k", "a", "t"]), ("CATS", ["k", "a", "t", "s"])]
      ([("CAT", ["k", "a", "t", "#1"]), ("CATS", ["k", "a", "t", "s"])], 1)
      (by decide) 1 ("CATS", ["k", "a", "t", "s"]) (by decide) (by decide)
      (by decide)⟩

/-- C9: when every entry's key is unique and unmarked, the assigner is the
identity with maximal index 0 (first conjunct, key vocabulary, arbitrary
lexicons); on a whitespace-free lexicon, pairwise-distinct pronunciations
none of which is a proper prefix of another make `add_disambig_symbols`
return the lexicon unchanged together with 0 (second conjunct). -/
theorem C9_identity_on_unambiguous :
    (∀ (lexicon : Lexicon),
      (∀ e ∈ lexicon, e.2 ≠ []) →
      (∀ e ∈ lexicon, phnKey e.2 ≠ []) →
      (∀ e ∈ lexicon, issubseqMap lexicon (phnKey e.2) = 0 ∧
        mkCount lexicon (phnKey e.2) = 1) →
      add_disambig_symbols lexicon = .ok (lexicon, 0)) ∧
    (∀ (lexicon : Lexicon), spaceFree lexicon →
      (∀ i j e f, i ≠ j → lexicon.get? i = some e →
        lexicon.get? j = some f → e.2 ≠ f.2) →
      (∀ e ∈ lexicon, ∀ f ∈ lexicon, ¬∃ t, t ≠ [] ∧ e.2 ++ t = f.2) →
      add_disambig_symbols lexicon = .ok (lexicon, 0)) := by
  constructor
  · exact fun lexicon h1 h2 h3 => add_disambig_id lexicon h1 h2 h3
  · intro lexicon hs hun hpf
    apply add_disambig_id lexicon (fun e he => (hs e he).1)
      (fun e he => phnKey_ne_nil (hs e he).1 (hs e he).2)
    intro e he
    have hgood_e := hs e he
    rcases List.get?_of_mem he with ⟨i, hget⟩
    constructor
    · by_contra hne0
      rcases (issubseqMap_spec lexicon (fun x hx => (hs x hx).1)
        (phnKey e.2)).mp hne0 with ⟨f, hmf, n, h1n, h2n, hKeq⟩
      have hgood_f := hs f hmf
      have he2 : e.2 = f.2.take n := phnKey_inj hgood_e.2
        (fun t ht => hgood_f.2 t (List.take_subset _ _ ht)) hKeq
      refine hpf e he f hmf ⟨f.2.drop n, ?_, ?_⟩
      · have hld : (f.2.drop n).length = f.2.length - n :=
          List.length_drop _ _
        intro hdn
        rw [hdn] at hld
        simp at hld
        omega
      · rw [he2]
        exact List.take_append_drop n f.2
    · rw [mkCount_eq]
      apply countP_eq_one_of _ lexicon i e hget (by simp)
      intro j f hj hgf
      simp only [beq_eq_false_iff_ne, ne_eq]
      intro hKeq
      have hgood_f := hs f (List.get?_mem hgf)
      exact hun j i f e hj hgf hget (phnKey_inj hgood_f.2 hgood_e.2 hKeq)

/-- C9 witness: the key-level identity applied to a concrete unambiguous
lexicon. -/
theorem C9_witness :
    (∀ e ∈ ([("CAT", ["k", "a", "t"]), ("DOG", ["d", "o", "g"])] :
      Lexicon), e.2 ≠ []) ∧
    (∀ e ∈ ([("CAT", ["k", "a", "t"]), ("DOG", ["d", "o", "g"])] :
      Lexicon), phnKey e.2 ≠ []) ∧
    (∀ e ∈ ([("CAT", ["k", "a", "t"]), ("DOG", ["d", "o", "g"])] :
      Lexicon),
      issubseqMap [("CAT", ["k", "a", "t"]), ("DOG", ["d", "o", "g"])]
        (phnKey e.2) = 0 ∧
      mkCount [("CAT", ["k", "a", "t"]), ("DOG", ["d", "o", "g"])]
        (phnKey e.2) = 1) ∧
    add_disambig_symbols
      [("CAT", ["k", "a", "t"]), ("DOG", ["d", "o", "g"])] =
      .ok ([("CAT", ["k", "a", "t"]), ("DOG", ["d", "o", "g"])], 0) :=
  ⟨by decide, by decide, by decide,
    C9_identity_on_unambiguous.1
      [("CAT", ["k", "a", "t"]), ("DOG", ["d", "o", "g"])]
      (by decide) (by decide) (by decide)⟩

/-- C10: the assigner identifies pronunciations through their space-joined
string: the lexicon `[("A", ["a b"]), ("B", ["a", "b"])]`, whose two
token lists differ but join identically, is treated as a duplicated key —
both entries are rewritten, and the rewritten pronunciations are produced
by re-splitting the joined string, normalising `["a b"]` to
`["a","b","#1"]`; in general the `count` map depends on entries only
through their joined key. -/
theorem C10_joined_key_identification :
    add_disambig_symbols [("A", ["a b"]), ("B", ["a", "b"])] =
      .ok ([("A", ["a", "b", "#1"]), ("B", ["a", "b", "#2"])], 2) ∧
    (∀ (lexicon : Lexicon) (K : List Char),
      mkCount lexicon K = lexicon.countP (fun e => phnKey e.2 == K)) := by
  exact ⟨by decide, mkCount_eq⟩

/-! ## Structure of the emitted arcs -/

theorem midArcs_spec : ∀ (ts : List Int) (cur next : Nat), ts ≠ [] →
    cur < next →
    ∃ r, midArcs cur next ts = (r, next + (ts.length - 1)) ∧
      r.length = ts.length ∧
      (∀ a ∈ r, ∃ c d il : Int, a = [c, d, il, 0, 0] ∧ 0 ≤ c ∧
        c < ((next + (ts.length - 1) : Nat) : Int)) ∧
      (∃ c il : Int, r.getLast? = some [c, 0, il, 0, 0])
  | [], _, _, h, _ => absurd rfl h
  | [t], cur, next, _, hcn => by
    refine ⟨[[(cur : Int), 0, t, 0, 0]], by simp [midArcs], by simp, ?_, ?_⟩
    · intro a ha
      simp at ha
      subst ha
      refine ⟨(cur : Int), 0, t, rfl, by positivity, ?_⟩
      simp only [List.length_cons, List.length_nil]
      push_cast
      omega
    · exact ⟨(cur : Int), t, rfl⟩
  | t :: u :: ts, cur, next, _, hcn => by
    rcases midArcs_spec (u :: ts) next (next + 1) (by simp) (by omega) with
      ⟨r', heq, hlen, hshape, hlast⟩
    have harith : (next + 1) + ((u :: ts).length - 1) =
        next + ((t :: u :: ts).length - 1) := by
      simp only [List.length_cons]
      omega
    refine ⟨[(cur : Int), (next : Int), t, 0, 0] :: r', ?_, ?_, ?_, ?_⟩
    · show ([(cur : Int), (next : Int), t, 0, 0] ::
        (midArcs next (next + 1) (u :: ts)).1,
        (midArcs next (next + 1) (u :: ts)).2) = _
      rw [heq, harith]
    · simp [hlen]
    · intro a ha
      rcases List.mem_cons.mp ha with rfl | har
      · refine ⟨(cur : Int), (next : Int), t, rfl, by positivity, ?_⟩
        simp only [List.length_cons]
        push_cast
        omega
      · rcases hshape a har with ⟨c, d, il, hae, hc0, hcb⟩
        refine ⟨c, d, il, hae, hc0, ?_⟩
        simp only [List.length_cons] at hcb ⊢
        push_cast at hcb ⊢
        omega
    · rcases hlast with ⟨c, il, hg⟩
      refine ⟨c, il, ?_⟩
      have hr' : r' ≠ [] := by
        intro h0
        rw [h0] at hlen
        simp at hlen
      cases r' with
      | nil => exact absurd rfl hr'
      | cons b bs =>
        rw [List.getLast?_cons_cons]
        exact hg

theorem entryArcs_spec (wid t : Int) (ts : List Int) (next : Nat)
    (_h1 : 1 ≤ next) :
    ∃ r, entryArcs wid (t :: ts) next =
        ([0, if ts = [] then 0 else (next : Int), t, wid, 0] :: r,
          next + ts.length) ∧
      r.length = ts.length ∧
      (∀ a ∈ r, ∃ c d il : Int, a = [c, d, il, 0, 0] ∧ 0 ≤ c ∧
        c < ((next + ts.length : Nat) : Int)) ∧
      (ts ≠ [] → ∃ c il : Int, r.getLast? = some [c, 0, il, 0, 0]) := by
  cases ts with
  | nil =>
    refine ⟨[], by simp [entryArcs], rfl, by simp, by simp⟩
  | cons u us =>
    rcases midArcs_spec (u :: us) next (next + 1) (by simp) (by omega) with
      ⟨r', heq, hlen, hshape, hlast⟩
    have harith : (next + 1) + ((u :: us).length - 1) =
        next + (u :: us).length := by
      simp only [List.length_cons]
      omega
    refine ⟨r', ?_, by simpa using hlen, ?_, fun _ => hlast⟩
    · show ([0, (next : Int), t, wid, 0] ::
        (midArcs next (next + 1) (u :: us)).1,
        (midArcs next (next + 1) (u :: us)).2) = _
      rw [heq, harith]
      rw [if_neg (List.cons_ne_nil u us)]
    · intro a ha
      rcases hshape a ha with ⟨c, d, il, hae, hc0, hcb⟩
      refine ⟨c, d, il, hae, hc0, ?_⟩
      rw [harith] at hcb
      exact hcb

theorem lookupAll_length (token2id : String → Option Int) :
    ∀ (ts : List String) (r : List Int),
      lookupAll token2id ts = .ok r → r.length = ts.length
  | [], r, h => by
    have h' : Except.ok ([] : List Int) = Except.ok r := h
    injection h' with h2
    rw [← h2]
    rfl
  | t :: ts, r, h => by
    have h' : (match token2id t with
      | none => Except.error (FstErr.keyError t)
      | some v =>
        match lookupAll token2id ts with
        | .error e => .error e
        | .ok vs => .ok (v :: vs)) = Except.ok r := h
    cases hv : token2id t with
    | none => rw [hv] at h'; simp at h'
    | some v =>
      rw [hv] at h'
      cases hrec : lookupAll token2id ts with
      | error e => rw [hrec] at h'; simp at h'
      | ok vs =>
        rw [hrec] at h'
        simp only [Except.ok.injEq] at h'
        rw [← h']
        simp [lookupAll_length token2id ts vs hrec]

theorem buildCore_spec (token2id word2id : String → Option Int) :
    ∀ (lexicon : Lexicon) (next : Nat) (core : List (List Int)) (n' : Nat),
      1 ≤ next → buildCore token2id word2id lexicon next = .ok (core, n') →
      n' = next + sumLens lexicon ∧ next ≤ n' ∧
      ∀ a ∈ core, ∃ s d il ol : Int, a = [s, d, il, ol, 0] ∧ 0 ≤ s ∧
        s < (n' : Int)
  | [], next, core, n', _, h => by
    have h' : Except.ok (([] : List (List Int)), next) =
      Except.ok (core, n') := h
    simp only [Except.ok.injEq, Prod.mk.injEq] at h'
    obtain ⟨hc, hn⟩ := h'
    subst hc
    refine ⟨by rw [← hn]; simp [sumLens], by omega, by simp⟩
  | (w, prons) :: rest, next, core, n', hnext, h => by
    have h' : (if prons = [] then
        Except.error (FstErr.assertNoProns w)
      else
        match word2id w with
        | none => Except.error (FstErr.keyError w)
        | some wid =>
          match lookupAll token2id prons with
          | .error e => .error e
          | .ok tids =>
            let r := entryArcs wid tids next
            match buildCore token2id word2id rest r.2 with
            | .error e => .error e
            | .ok (arcs, m') => .ok (r.1 ++ arcs, m')) =
      Except.ok (core, n') := h
    by_cases hp : prons = []
    · rw [if_pos hp] at h'
      simp at h'
    · rw [if_neg hp] at h'
      cases hw : word2id w with
      | none => rw [hw] at h'; simp at h'
      | some wid =>
        rw [hw] at h'
        cases hl : lookupAll token2id prons with
        | error e => rw [hl] at h'; simp at h'
        | ok tids =>
          rw [hl] at h'
          simp only at h'
          cases hbc : buildCore token2id word2id rest
              (entryArcs wid tids next).2 with
          | error e => rw [hbc] at h'; simp at h'
          | ok pr =>
            obtain ⟨arcs, m'⟩ := pr
            rw [hbc] at h'
            simp only [Except.ok.injEq, Prod.mk.injEq] at h'
            have htl : tids.length = prons.length :=
              lookupAll_length token2id prons tids hl
            have htne : tids ≠ [] := by
              intro h0
              rw [h0] at htl
              simp at htl
              exact hp (List.length_eq_zero.mp htl.symm)
            obtain ⟨t, ts, rfl⟩ : ∃ t ts, tids = t :: ts := by
              cases tids with
              | nil => exact absurd rfl htne
              | cons t ts => exact ⟨t, ts, rfl⟩
            rcases entryArcs_spec wid t ts next hnext with
              ⟨r, heq, hlen, hshape, _⟩
            have hnext2 : (entryArcs wid (t :: ts) next).2 =
                next + ts.length := by rw [heq]
            rw [hnext2] at hbc
            rcases buildCore_spec token2id word2id rest (next + ts.length)
              arcs m' (by omega) hbc with ⟨hm, hle, hrest⟩
            have hsum : sumLens ((w, prons) :: rest) =
                ts.length + sumLens rest := by
              rw [sumLens]
              have : prons.length = ts.length + 1 := by
                rw [← htl]; simp
              rw [this]
              simp
            refine ⟨?_, ?_, ?_⟩
            · rw [← h'.2, hm, hsum]
              omega
            · rw [← h'.2]
              omega
            · intro a ha
              rw [← h'.1] at ha
              have hr1 : (entryArcs wid (t :: ts) next).1 =
                  [0, if ts = [] then 0 else (next : Int), t, wid, 0] ::
                    r := by rw [heq]
              rw [hr1] at ha
              rcases List.mem_append.mp ha with h1 | h2
              · rcases List.mem_cons.mp h1 with rfl | h1r
                · refine ⟨0, if ts = [] then 0 else (next : Int), t, wid,
                    rfl, le_refl 0, ?_⟩
                  rw [← h'.2, hm]
                  push_cast
                  omega
                · rcases hshape a h1r with ⟨c, d, il, hae, hc0, hcb⟩
                  refine ⟨c, d, il, 0, hae, hc0, ?_⟩
                  rw [← h'.2, hm]
                  push_cast at hcb ⊢
                  omega
              · rcases hrest a h2 with ⟨sv, d, il, ol, hae, hs0, hsb⟩
                rw [← h'.2]
                exact ⟨sv, d, il, ol, hae, hs0, hsb⟩

/-! ## Inverting the FST builder -/

theorem build_inv (lexicon : Lexicon) (t2i w2i : String → Option Int)
    (b : Bool) (res : List (List Int))
    (h : lexicon_to_fst_no_sil lexicon t2i w2i b = .ok res) :
    ∃ core n', buildCore t2i w2i lexicon 1 = .ok (core, n') ∧
      ∃ arcs1, ((b = false ∧ arcs1 = core) ∨
        (b = true ∧ ∃ dp dw, t2i "#0" = some dp ∧ w2i "#0" = some dw ∧
          arcs1 = add_self_loops core dp dw)) ∧
      res = sortArcs (arcs1 ++
        [[0, (n' : Int), -1, -1, 0], [(n' : Int)]]) := by
  have h1 : (match t2i "<unk>" with
    | none => Except.error (FstErr.keyError "<unk>")
    | some u =>
      if u ≠ 0 then Except.error FstErr.assertUnkId
      else
        match w2i "<eps>" with
        | none => Except.error (FstErr.keyError "<eps>")
        | some ep =>
          if ep ≠ 0 then Except.error FstErr.assertEpsId
          else
            match buildCore t2i w2i lexicon 1 with
            | .error e => .error e
            | .ok (arcs0, next) =>
              match (if b then
                  match t2i "#0" with
                  | none => Except.error (FstErr.keyError "#0")
                  | some dp =>
                    match w2i "#0" with
                    | none => Except.error (FstErr.keyError "#0")
                    | some dw => Except.ok (add_self_loops arcs0 dp dw)
                else Except.ok arcs0) with
              | .error e => .error e
              | .ok arcs1 =>
                .ok (sortArcs (arcs1 ++
                  [[0, (next : Int), -1, -1, 0], [(next : Int)]]))) =
      Except.ok res := h
  cases hu : t2i "<unk>" with
  | none => rw [hu] at h1; simp at h1
  | some u =>
    rw [hu] at h1
    have h2 : (if u ≠ 0 then Except.error FstErr.assertUnkId
      else
        match w2i "<eps>" with
        | none => Except.error (FstErr.keyError "<eps>")
        | some ep =>
          if ep ≠ 0 then Except.error FstErr.assertEpsId
          else
            match buildCore t2i w2i lexicon 1 with
            | .error e => .error e
            | .ok (arcs0, next) =>
              match (if b then
                  match t2i "#0" with
                  | none => Except.error (FstErr.keyError "#0")
                  | some dp =>
                    match w2i "#0" with
                    | none => Except.error (FstErr.keyError "#0")
                    | some dw => Except.ok (add_self_loops arcs0 dp dw)
                else Except.ok arcs0) with
              | .error e => .error e
              | .ok arcs1 =>
                .ok (sortArcs (arcs1 ++
                  [[0, (next : Int), -1, -1, 0], [(next : Int)]]))) =
      Except.ok res := h1
    by_cases hu0 : u ≠ 0
    · rw [if_pos hu0] at h2
      simp at h2
    · rw [if_neg hu0] at h2
      cases hep : w2i "<eps>" with
      | none => rw [hep] at h2; simp at h2
      | some ep =>
        rw [hep] at h2
        have h3 : (if ep ≠ 0 then Except.error FstErr.assertEpsId
          else
            match buildCore t2i w2i lexicon 1 with
            | .error e => .error e
            | .ok (arcs0, next) =>
              match (if b then
                  match t2i "#0" with
                  | none => Except.error (FstErr.keyError "#0")
                  | some dp =>
                    match w2i "#0" with
                    | none => Except.error (FstErr.keyError "#0")
                    | some dw => Except.ok (add_self_loops arcs0 dp dw)
                else Except.ok arcs0) with
              | .error e => .error e
              | .ok arcs1 =>
                .ok (sortArcs (arcs1 ++
                  [[0, (next : Int), -1, -1, 0], [(next : Int)]]))) =
          Except.ok res := h2
        by_cases hep0 : ep ≠ 0
        · rw [if_pos hep0] at h3
          simp at h3
        · rw [if_neg hep0] at h3
          cases hbc : buildCore t2i w2i lexicon 1 with
          | error e => rw [hbc] at h3; simp at h3
          | ok pr =>
            obtain ⟨core, n'⟩ := pr
            rw [hbc] at h3
            have h4 : (match (if b then
                  match t2i "#0" with
                  | none => Except.error (FstErr.keyError "#0")
                  | some dp =>
                    match w2i "#0" with
                    | none => Except.error (FstErr.keyError "#0")
                    | some dw => Except.ok (add_self_loops core dp dw)
                else Except.ok core) with
              | .error e => .error e
              | .ok arcs1 =>
                .ok (sortArcs (arcs1 ++
                  [[0, (n' : Int), -1, -1, 0], [(n' : Int)]]))) =
              Except.ok res := h3
            refine ⟨core, n', rfl, ?_⟩
            cases b with
            | false =>
              have h5 : Except.ok (sortArcs (core ++
                  [[0, (n' : Int), -1, -1, 0], [(n' : Int)]])) =
                  Except.ok res := h4
              simp only [Except.ok.injEq] at h5
              exact ⟨core, Or.inl ⟨rfl, rfl⟩, h5.symm⟩
            | true =>
              have h5 : (match (match t2i "#0" with
                  | none => Except.error (FstErr.keyError "#0")
                  | some dp =>
                    match w2i "#0" with
                    | none => Except.error (FstErr.keyError "#0")
                    | some dw => Except.ok (add_self_loops core dp dw)) with
                | Except.error e => Except.error e
                | Except.ok arcs1 =>
                  Except.ok (sortArcs (arcs1 ++
                    [[0, (n' : Int), -1, -1, 0], [(n' : Int)]]))) =
                  Except.ok res := h4
              cases hdp : t2i "#0" with
              | none => rw [hdp] at h5; simp at h5
              | some dp =>
                rw [hdp] at h5
                have h6 : (match (match w2i "#0" with
                    | none => Except.error (FstErr.keyError "#0")
                    | some dw =>
                      Except.ok (add_self_loops core dp dw)) with
                  | Except.error e => Except.error e
                  | Except.ok arcs1 =>
                    Except.ok (sortArcs (arcs1 ++
                      [[0, (n' : Int), -1, -1, 0], [(n' : Int)]]))) =
                    Except.ok res := h5
                cases hdw : w2i "#0" with
                | none => rw [hdw] at h6; simp at h6
                | some dw =>
                  rw [hdw] at h6
                  have h7 : Except.ok (sortArcs (add_self_loops core dp dw ++
                      [[0, (n' : Int), -1, -1, 0], [(n' : Int)]])) =
                      Except.ok res := h6
                  simp only [Except.ok.injEq] at h7
                  exact ⟨add_self_loops core dp dw,
                    Or.inr ⟨rfl, dp, dw, rfl, rfl, rfl⟩, h7.symm⟩

/-! ## Self-loops and sorting -/

theorem selfLoopSrc_eq (arc : List Int) (s : Int) :
    (match arc with
      | [src, _, _, olabel, _] => if olabel ≠ 0 then some src else none
      | _ => none) = some s ↔
    ∃ d il ol sc : Int, arc = [s, d, il, ol, sc] ∧ ol ≠ 0 := by
  rcases arc with _ | ⟨a1, _ | ⟨a2, _ | ⟨a3, _ | ⟨a4, _ | ⟨a5, rest⟩⟩⟩⟩⟩
  · simp
  · simp
  · simp
  · simp
  · simp
  · cases rest with
    | nil =>
      by_cases h4 : a4 ≠ 0
      · rw [show (match [a1, a2, a3, a4, a5] with
          | [src, _, _, olabel, _] =>
            if olabel ≠ 0 then some src else none
          | _ => none) = if a4 ≠ 0 then some a1 else none from rfl]
        rw [if_pos h4]
        constructor
        · intro hh
          simp only [Option.some.injEq] at hh
          exact ⟨a2, a3, a4, a5, by rw [hh], h4⟩
        · rintro ⟨d, il, ol, sc, haeq, hol⟩
          simp only [List.cons.injEq, and_true] at haeq
          rw [haeq.1]
      · rw [show (match [a1, a2, a3, a4, a5] with
          | [src, _, _, olabel, _] =>
            if olabel ≠ 0 then some src else none
          | _ => none) = if a4 ≠ 0 then some a1 else none from rfl]
        rw [if_neg h4]
        constructor
        · intro hh
          simp at hh
        · rintro ⟨d, il, ol, sc, haeq, hol⟩
          simp only [List.cons.injEq, and_true] at haeq
          exact absurd (haeq.2.2.2.1 ▸ hol) h4
    | cons a6 rest' => simp

theorem add_self_loops_decomp (arcs : List (List Int)) (dp dw : Int) :
    ∃ loops, add_self_loops arcs dp dw = arcs ++ loops ∧ loops.Nodup ∧
      ∀ a, a ∈ loops ↔ ∃ s, (∃ arc ∈ arcs, ∃ d il ol sc : Int,
        arc = [s, d, il, ol, sc] ∧ ol ≠ 0) ∧ a = [s, s, dp, dw, 0] := by
  refine ⟨(arcs.filterMap (fun arc : List Int =>
    match arc with
    | [src, _, _, olabel, _] => if olabel ≠ 0 then some src else none
    | _ => (none : Option Int))).dedup.map
      (fun s => [s, s, dp, dw, 0]), rfl, ?_, ?_⟩
  · apply List.Nodup.map
    · intro a b hab
      simpa using hab
    · exact List.nodup_dedup _
  · intro a
    rw [List.mem_map]
    constructor
    · rintro ⟨s, hs, rfl⟩
      rw [List.mem_dedup, List.mem_filterMap] at hs
      rcases hs with ⟨arc, harc, hmatch⟩
      exact ⟨s, ⟨arc, harc, (selfLoopSrc_eq arc s).mp hmatch⟩, rfl⟩
    · rintro ⟨s, ⟨arc, harc, hshape⟩, rfl⟩
      refine ⟨s, ?_, rfl⟩
      rw [List.mem_dedup, List.mem_filterMap]
      exact ⟨arc, harc, (selfLoopSrc_eq arc s).mpr hshape⟩

theorem getLast_of_max : ∀ (l : List (List Int)) (x : List Int),
    List.Sorted srcLe l → x ∈ l →
    (∀ y ∈ l, y = x ∨ srcKey y < srcKey x) → l.getLast? = some x
  | [], x, _, hx, _ => absurd hx (by simp)
  | [a], x, _, hx, _ => by
    simp at hx
    rw [hx]
    rfl
  | a :: b :: t, x, hs, hx, hmax => by
    have hsorted_tail : List.Sorted srcLe (b :: t) := hs.of_cons
    have hrel : ∀ y ∈ b :: t, srcLe a y :=
      List.rel_of_sorted_cons hs
    have hx' : x ∈ b :: t := by
      rcases List.mem_cons.mp hx with rfl | hmem
      · rcases hmax b (by simp) with hbx | hlt
        · rw [← hbx]
          simp
        · have hab : srcLe x b := hrel b (by simp)
          rw [srcLe] at hab
          omega
      · exact hmem
    rw [List.getLast?_cons_cons]
    exact getLast_of_max (b :: t) x hsorted_tail hx'
      (fun y hy => hmax y (List.mem_cons_of_mem a hy))

/-- C2: Scenario C produces exactly the specified arcs and final state 3;
in general (without self-loops) the builder emits the per-entry chains
followed by the terminating arc `(0, F, -1, -1, 0)` and the final-state
marker `[F]`, with `F = 1 + Σ (len(prons) - 1)` — the value of the state
counter after all entries — and each entry's first arc leaves state 0
carrying the word id as output label, the following arcs carry epsilon and
freshly allocated states, and the last arc returns to state 0. -/
theorem C2_fst_build_no_sil :
    lexicon_to_fst_no_sil lexC tok2idC word2idC false =
      .ok [[0, 1, 1, 1, 0], [0, 3, -1, -1, 0], [1, 2, 2, 0, 0],
           [2, 0, 3, 0, 0], [3]] ∧
    (∀ (lexicon : Lexicon) (t2i w2i : String → Option Int) res,
      lexicon_to_fst_no_sil lexicon t2i w2i false = .ok res →
      ∃ core, buildCore t2i w2i lexicon 1 =
          .ok (core, 1 + sumLens lexicon) ∧
        res = sortArcs (core ++
          [[0, ((1 + sumLens lexicon : Nat) : Int), -1, -1, 0],
           [((1 + sumLens lexicon : Nat) : Int)]])) ∧
    (∀ (wid t : Int) (ts : List Int) (next : Nat), 1 ≤ next →
      ∃ r, entryArcs wid (t :: ts) next =
          ([0, if ts = [] then 0 else (next : Int), t, wid, 0] :: r,
            next + ts.length) ∧
        (∀ a ∈ r, ∃ c d il : Int, a = [c, d, il, 0, 0]) ∧
        (ts ≠ [] → ∃ c il : Int, r.getLast? = some [c, 0, il, 0, 0])) := by
  refine ⟨by decide, ?_, ?_⟩
  · intro lexicon t2i w2i res h
    obtain ⟨core, n', hbc, arcs1, hcase, hres⟩ :=
      build_inv lexicon t2i w2i false res h
    obtain ⟨hn', _, _⟩ :=
      buildCore_spec t2i w2i lexicon 1 core n' (le_refl 1) hbc
    rcases hcase with ⟨_, harcs⟩ | ⟨hfalse, _⟩
    · rw [harcs] at hres
      subst hn'
      exact ⟨core, hbc, hres⟩
    · exact absurd hfalse (by simp)
  · intro wid t ts next h1
    rcases entryArcs_spec wid t ts next h1 with ⟨r, heq, _, hshape, hlast⟩
    exact ⟨r, heq, fun a ha => by
      rcases hshape a ha with ⟨c, d, il, hae, _, _⟩
      exact ⟨c, d, il, hae⟩, hlast⟩

/-- C2 witness: the general conjuncts applied to Scenario C and to its
single entry's chain. -/
theorem C2_witness :
    lexicon_to_fst_no_sil lexC tok2idC word2idC false =
      .ok [[0, 1, 1, 1, 0], [0, 3, -1, -1, 0], [1, 2, 2, 0, 0],
           [2, 0, 3, 0, 0], [3]] ∧
    (∃ core, buildCore tok2idC word2idC lexC 1 =
        .ok (core, 1 + sumLens lexC) ∧
      [[0, 1, 1, 1, 0], [0, 3, -1, -1, 0], [1, 2, 2, 0, 0],
       [2, 0, 3, 0, 0], [3]] = sortArcs (core ++
        [[0, ((1 + sumLens lexC : Nat) : Int), -1, -1, 0],
         [((1 + sumLens lexC : Nat) : Int)]])) ∧
    (∃ r, entryArcs 1 ([1, 2, 3] : List Int) 1 =
        ([0, if ([2, 3] : List Int) = [] then 0 else ((1 : Nat) : Int),
          1, 1, 0] :: r, 1 + ([2, 3] : List Int).length) ∧
      (∀ a ∈ r, ∃ c d il : Int, a = [c, d, il, 0, 0]) ∧
      (([2, 3] : List Int) ≠ [] →
        ∃ c il : Int, r.getLast? = some [c, 0, il, 0, 0])) :=
  ⟨by decide,
    C2_fst_build_no_sil.2.1 lexC tok2idC word2idC
      [[0, 1, 1, 1, 0], [0, 3, -1, -1, 0], [1, 2, 2, 0, 0],
       [2, 0, 3, 0, 0], [3]] (by decide),
    C2_fst_build_no_sil.2.2 1 1 [2, 3] 1 (by decide)⟩

/-- C8: for every lexicon and symbol tables, a successful build (with or
without self-loops) returns an arc list sorted by source state whose last
element is the final-state marker `[F]` with
`F = 1 + Σ (len(prons) - 1)`. -/
theorem C8_sorted_marker_last :
    ∀ (lexicon : Lexicon) (t2i w2i : String → Option Int) (b : Bool) res,
      lexicon_to_fst_no_sil lexicon t2i w2i b = .ok res →
      List.Sorted srcLe res ∧
      res.getLast? = some [((1 + sumLens lexicon : Nat) : Int)] := by
  intro lexicon t2i w2i b res h
  obtain ⟨core, n', hbc, arcs1, hcase, hres⟩ :=
    build_inv lexicon t2i w2i b res h
  obtain ⟨hn', _, hbounds⟩ :=
    buildCore_spec t2i w2i lexicon 1 core n' (le_refl 1) hbc
  subst hn'
  subst hres
  have hn1 : 1 ≤ 1 + sumLens lexicon := by omega
  have hcore_bound : ∀ y ∈ core,
      srcKey y < ((1 + sumLens lexicon : Nat) : Int) := by
    intro y hy
    rcases hbounds y hy with ⟨sv, d, il, ol, hae, _, hsb⟩
    rw [hae]
    exact hsb
  have harcs1_bound : ∀ y ∈ arcs1,
      srcKey y < ((1 + sumLens lexicon : Nat) : Int) := by
    rcases hcase with ⟨_, harcs⟩ | ⟨_, dp, dw, _, _, harcs⟩
    · subst harcs
      exact hcore_bound
    · subst harcs
      obtain ⟨loops, hdecomp, _, hmem⟩ := add_self_loops_decomp core dp dw
      rw [hdecomp]
      intro y hy
      rcases List.mem_append.mp hy with hy1 | hy2
      · exact hcore_bound y hy1
      · rcases (hmem y).mp hy2 with ⟨sv, ⟨arc, harc, d, il, ol, sc,
          harceq, _⟩, rfl⟩
        rcases hbounds arc harc with ⟨s2, d2, il2, ol2, harceq2, _, hsb2⟩
        rw [harceq] at harceq2
        have hs : sv = s2 := by
          simp only [List.cons.injEq] at harceq2
          exact harceq2.1
        show sv < _
        rw [hs]
        exact hsb2
  constructor
  · exact List.sorted_insertionSort srcLe _
  · apply getLast_of_max
    · exact List.sorted_insertionSort srcLe _
    · rw [sortArcs, List.mem_insertionSort]
      simp
    · intro y hy
      rw [sortArcs, List.mem_insertionSort] at hy
      rcases List.mem_append.mp hy with hy1 | hy2
      · right
        show srcKey y < ((1 + sumLens lexicon : Nat) : Int)
        exact harcs1_bound y hy1
      · rcases List.mem_cons.mp hy2 with rfl | hy3
        · right
          show (0 : Int) < ((1 + sumLens lexicon : Nat) : Int)
          push_cast
          omega
        · left
          simpa using hy3

/-- C8 witness: the theorem applied to Scenario C. -/
theorem C8_witness :
    lexicon_to_fst_no_sil lexC tok2idC word2idC false =
      .ok [[0, 1, 1, 1, 0], [0, 3, -1, -1, 0], [1, 2, 2, 0, 0],
           [2, 0, 3, 0, 0], [3]] ∧
    (List.Sorted srcLe [[0, 1, 1, 1, 0], [0, 3, -1, -1, 0],
        [1, 2, 2, 0, 0], [2, 0, 3, 0, 0], [(3 : Int)]] ∧
      ([[0, 1, 1, 1, 0], [0, 3, -1, -1, 0], [1, 2, 2, 0, 0],
        [2, 0, 3, 0, 0], [(3 : Int)]] : List (List Int)).getLast? =
        some [((1 + sumLens lexC : Nat) : Int)]) :=
  ⟨by decide,
    C8_sorted_marker_last lexC tok2idC word2idC false
      [[0, 1, 1, 1, 0], [0, 3, -1, -1, 0], [1, 2, 2, 0, 0],
       [2, 0, 3, 0, 0], [3]] (by decide)⟩

/-- C3: with self-loops requested, the built arc set is (as a multiset)
the build without self-loops plus exactly one self-loop
`(s, s, #0-token-id, #0-word-id, 0)` per distinct state `s` that is the
source of at least one arc with non-epsilon output label among the entry
arcs — the terminating arc is not part of that scan; in Scenario D the
single extra arc `(0,0,4,2,0)` is added. -/
theorem C3_self_loop_arcs :
    (∀ (lexicon : Lexicon) (t2i w2i : String → Option Int) res res'
      (dp dw : Int),
      lexicon_to_fst_no_sil lexicon t2i w2i true = .ok res →
      lexicon_to_fst_no_sil lexicon t2i w2i false = .ok res' →
      t2i "#0" = some dp → w2i "#0" = some dw →
      ∃ core n', buildCore t2i w2i lexicon 1 = .ok (core, n') ∧
      ∃ loops, res.Perm (res' ++ loops) ∧ loops.Nodup ∧
        ∀ a, a ∈ loops ↔ ∃ s, (∃ arc ∈ core, ∃ d il ol sc : Int,
          arc = [s, d, il, ol, sc] ∧ ol ≠ 0) ∧ a = [s, s, dp, dw, 0]) ∧
    lexicon_to_fst_no_sil lexC tok2idD word2idD true =
      .ok [[0, 1, 1, 1, 0], [0, 0, 4, 2, 0], [0, 3, -1, -1, 0],
           [1, 2, 2, 0, 0], [2, 0, 3, 0, 0], [3]] := by
  constructor
  · intro lexicon t2i w2i res res' dp dw ht hf hdp hdw
    obtain ⟨core, n', hbc, arcs1, hcase, hresE⟩ :=
      build_inv lexicon t2i w2i true res ht
    obtain ⟨core2, n2, hbc2, arcs1', hcase', hresE'⟩ :=
      build_inv lexicon t2i w2i false res' hf
    rw [hbc] at hbc2
    have hcore2 : core2 = core := by
      simp only [Except.ok.injEq, Prod.mk.injEq] at hbc2
      exact hbc2.1.symm
    have hn2 : n2 = n' := by
      simp only [Except.ok.injEq, Prod.mk.injEq] at hbc2
      exact hbc2.2.symm
    rcases hcase with ⟨hfalse, _⟩ | ⟨_, dp2, dw2, hdp2, hdw2, harcs⟩
    · exact absurd hfalse (by simp)
    rcases hcase' with ⟨_, harcs'⟩ | ⟨htrue, _⟩
    swap
    · exact absurd htrue (by simp)
    have hdpe : dp2 = dp := by
      rw [hdp] at hdp2
      injection hdp2 with hval
      exact hval.symm
    have hdwe : dw2 = dw := by
      rw [hdw] at hdw2
      injection hdw2 with hval
      exact hval.symm
    obtain ⟨loops, hdecomp, hnodup, hmem⟩ :=
      add_self_loops_decomp core dp dw
    refine ⟨core, n', hbc, loops, ?_, hnodup, hmem⟩
    rw [hdpe, hdwe, hdecomp] at harcs
    rw [hcore2] at harcs'
    rw [hresE, harcs, hresE', harcs', hn2]
    have hp1 : (sortArcs ((core ++ loops) ++
        [[0, (n' : Int), -1, -1, 0], [(n' : Int)]])).Perm
        ((core ++ loops) ++
          [[0, (n' : Int), -1, -1, 0], [(n' : Int)]]) :=
      List.perm_insertionSort srcLe _
    have hp2 : ((core ++ loops) ++
        [[0, (n' : Int), -1, -1, 0], [(n' : Int)]]).Perm
        ((core ++ [[0, (n' : Int), -1, -1, 0], [(n' : Int)]]) ++
          loops) := by
      rw [List.append_assoc, List.append_assoc]
      exact List.Perm.append_left core List.perm_append_comm
    have hp3 : ((sortArcs (core ++
        [[0, (n' : Int), -1, -1, 0], [(n' : Int)]])) ++ loops).Perm
        ((core ++ [[0, (n' : Int), -1, -1, 0], [(n' : Int)]]) ++
          loops) :=
      List.Perm.append_right loops (List.perm_insertionSort srcLe _)
    exact (hp1.trans hp2).trans hp3.symm
  · decide

/-- C3 witness: the general statement applied to Scenario D. -/
theorem C3_witness :
    lexicon_to_fst_no_sil lexC tok2idD word2idD true =
      .ok [[0, 1, 1, 1, 0], [0, 0, 4, 2, 0], [0, 3, -1, -1, 0],
           [1, 2, 2, 0, 0], [2, 0, 3, 0, 0], [3]] ∧
    lexicon_to_fst_no_sil lexC tok2idD word2idD false =
      .ok [[0, 1, 1, 1, 0], [0, 3, -1, -1, 0], [1, 2, 2, 0, 0],
           [2, 0, 3, 0, 0], [3]] ∧
    tok2idD "#0" = some 4 ∧ word2idD "#0" = some 2 ∧
    (∃ core n', buildCore tok2idD word2idD lexC 1 = .ok (core, n') ∧
      ∃ loops, ([[0, 1, 1, 1, 0], [0, 0, 4, 2, 0], [0, 3, -1, -1, 0],
          [1, 2, 2, 0, 0], [2, 0, 3, 0, 0], [(3 : Int)]] :
            List (List Int)).Perm
          (([[0, 1, 1, 1, 0], [0, 3, -1, -1, 0], [1, 2, 2, 0, 0],
             [2, 0, 3, 0, 0], [(3 : Int)]] : List (List Int)) ++ loops) ∧
        loops.Nodup ∧
        ∀ a, a ∈ loops ↔ ∃ s, (∃ arc ∈ core, ∃ d il ol sc : Int,
          arc = [s, d, il, ol, sc] ∧ ol ≠ 0) ∧
          a = [s, s, (4 : Int), (2 : Int), 0]) :=
  ⟨by decide, by decide, by decide, by decide,
    C3_self_loop_arcs.1 lexC tok2idD word2idD
      [[0, 1, 1, 1, 0], [0, 0, 4, 2, 0], [0, 3, -1, -1, 0],
       [1, 2, 2, 0, 0], [2, 0, 3, 0, 0], [3]]
      [[0, 1, 1, 1, 0], [0, 3, -1, -1, 0], [1, 2, 2, 0, 0],
       [2, 0, 3, 0, 0], [3]] 4 2
      (by decide) (by decide) (by decide) (by decide)⟩

end PrepareLangBpe
